import Mathlib

/-!
Verification of the `linear_solver` core (`src/lib.rs`).

Shallow embedding of the linear fact-rewriting solver:

* `Inference` mirrors the six-variant `Inference<T>` enum together with its
  three cache-aware constructors `replace_one`, `replace`, `replace_many`.
* `removeLoop` / `replaceLoop` mirror the two nested helper functions
  `remove_from` and `replace` of `solve_minimum` (the scan loops are written
  with an explicit fuel argument equal to `facts.length - i`, which makes the
  recursion structural; the loops also keep the source's `i < facts.length`
  exit test, so over-supplying fuel is harmless).
* `solveStep` / `runFrom` mirror one iteration / `n` iterations of the
  `solve_minimum` driver loop.  The `HashSet` cache is modelled as a
  `Finset`.  The Bloom filter over whole fact vectors is modelled as an
  exact `Finset (List T)`: the source sizes the filter so that false
  positives never happen in practice (rate 1e-8), and false negatives never
  occur by construction, so the idealised filter is the set of previously
  inserted fact sequences.
* The user inference function is modelled as an oracle that may additionally
  observe the iteration index, so that non-deterministic `infer` functions
  (which the spec discusses) are representable; a deterministic `infer` is
  the oracle `detOracle g` that ignores the index.
-/

namespace LinearSolver

variable {T : Type} [DecidableEq T]

/-- The `Inference<T>` enum of `src/lib.rs` (fields positional: `from`
is a Lean keyword).  `OneTrue from`, `ManyTrue from`, `Simplify from to`,
`SimplifyOne from to`, `SimplifyMany from to`, `Propagate to`. -/
inductive Inference (T : Type) where
  | OneTrue : T → Inference T
  | ManyTrue : List T → Inference T
  | Simplify : List T → T → Inference T
  | SimplifyOne : T → T → Inference T
  | SimplifyMany : List T → List T → Inference T
  | Propagate : T → Inference T
  deriving DecidableEq

/-- `Vec::swap_remove(i)`: overwrite position `i` with the last element and
pop the last element. -/
def swapRemove (l : List T) (i : Nat) : List T :=
  match l.getLast? with
  | none => l
  | some x => (l.set i x).dropLast

/-- `Inference::replace_one` from the source: `OneTrue {from}` when the
cache already contains `to`, else `SimplifyOne {from, to}`. -/
def Inference.replace_one (f t : T) (cache : Finset T) : Inference T :=
  if t ∈ cache then Inference.OneTrue f else Inference.SimplifyOne f t

/-- `Inference::replace` from the source: `ManyTrue {from}` when the cache
already contains `to`, else `Simplify {from, to}`. -/
def Inference.replace (fs : List T) (t : T) (cache : Finset T) : Inference T :=
  if t ∈ cache then Inference.ManyTrue fs else Inference.Simplify fs t

/-- The descending loop of `Inference::replace_many`:
`for i in (0..to.len()).rev() { if cache.contains(&to[i]) { to.swap_remove(i); } }`.
The argument counts down over the original indices. -/
def replaceManyLoop (cache : Finset T) : Nat → List T → List T
  | 0, ts => ts
  | i + 1, ts =>
    replaceManyLoop cache i
      (match ts[i]? with
       | some x => if x ∈ cache then swapRemove ts i else ts
       | none => ts)

/-- `Inference::replace_many` from the source: drop the `to` entries already
in the cache (by reverse-order `swap_remove`), keep `from` as is. -/
def Inference.replace_many (fs : List T) (ts : List T) (cache : Finset T) :
    Inference T :=
  Inference.SimplifyMany fs (replaceManyLoop cache ts.length ts)

/-- The inner scan of `remove_from` for a single target `f`:

```
let mut unique = false; let mut i = 0;
loop {
  if i >= facts.len() {break};
  if new_fact == &facts[i] {
    if unique { unique = false; break; }
    facts.swap_remove(i); unique = true;
  } else { i += 1; }
}
```

`fuel` is `facts.length - i` at the call site; every loop iteration
decreases it by exactly one (either `i` grows or the list shrinks), so the
recursion is structural in `fuel` while keeping the source's
`i < facts.length` test. -/
def removeLoop (f : T) : Nat → List T → Nat → Bool → List T × Bool
  | 0, facts, _, unique => (facts, unique)
  | fuel + 1, facts, i, unique =>
    if h : i < facts.length then
      if f = facts.get ⟨i, h⟩ then
        if unique then (facts, false)
        else removeLoop f fuel (swapRemove facts i) i true
      else removeLoop f fuel facts (i + 1) unique
    else (facts, unique)

/-- One target of `remove_from`: run the scan, then
`if unique { cache.remove(&new_fact) }`. -/
def removeOne (f : T) (cache : Finset T) (facts : List T) :
    Finset T × List T :=
  match removeLoop f facts.length facts 0 false with
  | (facts2, unique) => (if unique then cache.erase f else cache, facts2)

/-- `remove_from(from, cache, facts)` of the source: process each target in
order. -/
def remove_from (fs : List T) (cache : Finset T) (facts : List T) :
    Finset T × List T :=
  fs.foldl (fun cf g => removeOne g cf.1 cf.2) (cache, facts)

/-- The scan of the nested `replace` function:

```
let mut unique = false;
for i in 0..facts.len() {
  if from == &facts[i] {
    if unique { unique = false; break; }
    facts[i] = to.clone(); unique = true;
  }
}
```

`fuel` is `facts.length - i` at the call site (`set` keeps the length, so
the bound never moves). -/
def replaceLoop (f t : T) : Nat → List T → Nat → Bool → List T × Bool
  | 0, facts, _, unique => (facts, unique)
  | fuel + 1, facts, i, unique =>
    if h : i < facts.length then
      if f = facts.get ⟨i, h⟩ then
        if unique then (facts, false)
        else replaceLoop f t fuel (facts.set i t) (i + 1) true
      else replaceLoop f t fuel facts (i + 1) unique
    else (facts, unique)

/-- The nested `replace(from, to, cache, facts)` of the source: scan,
overwrite the first occurrence, then `if unique { cache.remove(&from) }`. -/
def replaceFn (f t : T) (cache : Finset T) (facts : List T) :
    Finset T × List T :=
  match replaceLoop f t facts.length facts 0 false with
  | (facts2, unique) => (if unique then cache.erase f else cache, facts2)

/-- The verb dispatch of the driver loop (`match x { ... }` in
`solve_minimum`): how one returned `Inference` verb mutates
`(cache, facts)`. -/
def applyInference (x : Inference T) (cache : Finset T) (facts : List T) :
    Finset T × List T :=
  match x with
  | Inference.ManyTrue fs => remove_from fs cache facts
  | Inference.OneTrue f => remove_from [f] cache facts
  | Inference.Simplify fs t =>
    let cf := remove_from fs cache facts
    (insert t cf.1, cf.2 ++ [t])
  | Inference.SimplifyOne f t =>
    let cf := replaceFn f t cache facts
    (insert t cf.1, cf.2)
  | Inference.SimplifyMany fs ts =>
    let cf := remove_from fs cache facts
    (ts.foldl (fun c a => insert a c) cf.1, cf.2 ++ ts)
  | Inference.Propagate t => (insert t cache, facts ++ [t])

/-- The two-state machine of the driver (`enum State<T>`). -/
inductive SolverState (T : Type) where
  | Solving : SolverState T
  | SearchMinimum : List T → SolverState T
  deriving DecidableEq

/-- The mutable locals of the driver loop: the membership cache, the
(idealised) Bloom filter of previously seen fact sequences, the state
machine, and the current fact vector. -/
structure LoopState (T : Type) where
  cache : Finset T
  filter : Finset (List T)
  st : SolverState T
  facts : List T
  deriving DecidableEq

/-- Result of one driver iteration: `break` with the final facts, or
continue with the updated locals. -/
inductive StepResult (T : Type) where
  | done : List T → StepResult T
  | cont : LoopState T → StepResult T
  deriving DecidableEq

/-- An inference oracle.  The extra `Nat` argument is the iteration index,
which lets non-deterministic `infer` functions be modelled; a deterministic
`infer` ignores it (see `detOracle`). -/
def detOracle (g : Finset T → List T → Option (Inference T)) :
    Nat → Finset T → List T → Option (Inference T) :=
  fun _ => g

/-- The tail of one driver iteration, after the phase check:
`filter.insert(&facts); if let Some(x) = infer(&cache, &facts) { apply } else { break }`. -/
def solveStepCont (orc : Nat → Finset T → List T → Option (Inference T))
    (n : Nat) (s : LoopState T) : StepResult T :=
  match orc n s.cache s.facts with
  | none => StepResult.done s.facts
  | some x =>
    let cf := applyInference x s.cache s.facts
    StepResult.cont
      { cache := cf.1, filter := insert s.facts s.filter, st := s.st,
        facts := cf.2 }

/-- One full iteration of the `solve_minimum` loop: the phase check
(`match state { ... }`), then `solveStepCont`. -/
def solveStep (orc : Nat → Finset T → List T → Option (Inference T))
    (n : Nat) (s : LoopState T) : StepResult T :=
  match s.st with
  | SolverState.Solving =>
    if s.facts ∈ s.filter then
      solveStepCont orc n
        { s with st := SolverState.SearchMinimum s.facts, filter := ∅ }
    else solveStepCont orc n s
  | SolverState.SearchMinimum fa =>
    if s.facts ∈ s.filter then
      StepResult.done (if fa.length < s.facts.length then fa else s.facts)
    else if s.facts.length < fa.length then
      solveStepCont orc n { s with st := SolverState.SearchMinimum s.facts }
    else solveStepCont orc n s

/-- The state at loop entry: cache populated from the initial facts, empty
filter, `Solving`. -/
def initState (facts : List T) : LoopState T :=
  { cache := facts.toFinset, filter := ∅, st := SolverState.Solving,
    facts := facts }

/-- Run `n` iterations of the driver loop from a state (absorbing on
`done`). -/
def runFrom (orc : Nat → Finset T → List T → Option (Inference T))
    (s0 : LoopState T) : Nat → StepResult T
  | 0 => StepResult.cont s0
  | n + 1 =>
    match runFrom orc s0 n with
    | StepResult.done r => StepResult.done r
    | StepResult.cont s => solveStep orc n s

/-- `solve_minimum(facts, infer)`, with an explicit iteration budget:
`some r` when the loop breaks within `fuel` iterations with result `r`.
The source function is this with unbounded fuel. -/
def solve_minimum (fuel : Nat) (facts : List T)
    (orc : Nat → Finset T → List T → Option (Inference T)) :
    Option (List T) :=
  match runFrom orc (initState facts) fuel with
  | StepResult.done r => some r
  | StepResult.cont _ => none

/-- One step of the pure `(cache, facts)` evolution, ignoring the filter
and state machine (the verb dispatch applied to the oracle's answer; frozen
once the oracle answers `none`).  Used to describe the trajectory
`F₀, F₁, …` of a deterministic `infer`. -/
def pureStep (g : Finset T → List T → Option (Inference T))
    (cf : Finset T × List T) : Finset T × List T :=
  match g cf.1 cf.2 with
  | none => cf
  | some x => applyInference x cf.1 cf.2

/-- The pure `(cache, facts)` trajectory of a deterministic `infer`. -/
def pureState (g : Finset T → List T → Option (Inference T))
    (init : List T) : Nat → Finset T × List T
  | 0 => (init.toFinset, init)
  | n + 1 => pureStep g (pureState g init n)

/-- The fact-multiset trajectory `F₀, F₁, …` of a deterministic `infer`. -/
def pureFacts (g : Finset T → List T → Option (Inference T))
    (init : List T) (n : Nat) : List T :=
  (pureState g init n).2

/-- Invariant I1 of the spec: a fact is in the presence cache iff it has at
least one occurrence in the fact list. -/
def invariantI1 (cache : Finset T) (facts : List T) : Prop :=
  ∀ g : T, g ∈ cache ↔ g ∈ facts

/-! ## Characterisation of `swap_remove` and the two scan loops -/

lemma count_one (x g : T) : List.count g [x] = if x = g then 1 else 0 := by
  by_cases h : x = g <;> simp [h, List.count_cons]

lemma swapRemove_spec {l : List T} {i : Nat} (h : i < l.length) :
    (swapRemove l i).length + 1 = l.length ∧
    (swapRemove l i).take i = l.take i ∧
    ∀ g : T, (swapRemove l i).count g +
      (if l.get ⟨i, h⟩ = g then 1 else 0) = l.count g := by
  have hne : l ≠ [] := by
    intro e; subst e; simp at h
  have hx := List.getLast?_eq_getLast l hne
  have hsr : swapRemove l i = (l.set i (l.getLast hne)).dropLast := by
    unfold swapRemove; rw [hx]
  have hlenset : (l.set i (l.getLast hne)).length = l.length := by simp
  have hdec : l.set i (l.getLast hne) =
      l.take i ++ l.getLast hne :: l.drop (i + 1) :=
    List.set_eq_take_cons_drop _ h
  have hl : l = l.take i ++ l.get ⟨i, h⟩ :: l.drop (i + 1) := by
    conv_lhs => rw [← List.take_append_drop i l]
    rw [List.drop_eq_getElem_cons h]
    rfl
  have hlen : (swapRemove l i).length + 1 = l.length := by
    rw [hsr]
    simp only [List.length_dropLast, hlenset]
    omega
  refine ⟨hlen, ?_, ?_⟩
  · rw [hsr, List.dropLast_eq_take, hlenset, List.take_take]
    have hmin : min i (l.length - 1) = i := by omega
    rw [hmin, hdec]
    have htl : (l.take i).length = i := by
      rw [List.length_take]; omega
    exact List.take_left' htl
  · intro g
    have hsne : l.set i (l.getLast hne) ≠ [] := by
      intro e
      have : (l.set i (l.getLast hne)).length = 0 := by rw [e]; rfl
      omega
    have hlast : (l.set i (l.getLast hne)).getLast hsne = l.getLast hne := by
      rw [List.getLast_eq_getElem, List.getElem_set]
      split
      · rfl
      · simp only [List.length_set]
        exact (List.getLast_eq_getElem l hne).symm
    have happ := List.dropLast_append_getLast hsne
    rw [hlast] at happ
    have hcount1 : (swapRemove l i).count g +
        (if l.getLast hne = g then 1 else 0) =
        (l.set i (l.getLast hne)).count g := by
      rw [hsr]
      conv_rhs => rw [← happ]
      rw [List.count_append, count_one]
    have hcount2 : (l.set i (l.getLast hne)).count g =
        (l.take i).count g + ((if l.getLast hne = g then 1 else 0) +
          (l.drop (i + 1)).count g) := by
      rw [hdec, List.count_append, ← List.singleton_append,
        List.count_append, count_one]
    have hcount3 : l.count g =
        (l.take i).count g + ((if l.get ⟨i, h⟩ = g then 1 else 0) +
          (l.drop (i + 1)).count g) := by
      conv_lhs => rw [hl]
      rw [List.count_append, ← List.singleton_append,
        List.count_append, count_one]
    omega

lemma removeLoop_true_spec (f : T) : ∀ (fuel : Nat) (facts : List T) (i : Nat),
    facts.length ≤ i + fuel →
    (removeLoop f fuel facts i true).1 = facts ∧
    ((removeLoop f fuel facts i true).2 = true ↔ f ∉ facts.drop i) := by
  intro fuel
  induction fuel with
  | zero =>
    intro facts i hle
    have hnil : facts.drop i = [] := List.drop_eq_nil_of_le (by omega)
    simp [removeLoop, hnil]
  | succ fuel ih =>
    intro facts i hle
    by_cases h : i < facts.length
    · have hdrop : facts.drop i = facts.get ⟨i, h⟩ :: facts.drop (i + 1) :=
        List.drop_eq_get_cons h
      by_cases he : f = facts.get ⟨i, h⟩
      · have hmem : f ∈ facts.drop i := by
          rw [hdrop]; exact he ▸ List.mem_cons_self _ _
        have hred : removeLoop f (fuel + 1) facts i true = (facts, false) := by
          simp [removeLoop, h, he]
        rw [hred]
        exact ⟨rfl, by simpa using hmem⟩
      · have hrec := ih facts (i + 1) (by omega)
        simp only [removeLoop, dif_pos h, if_neg he]
        refine ⟨hrec.1, ?_⟩
        rw [hrec.2]
        constructor
        · intro hnd hin
          rw [hdrop] at hin
          rcases List.mem_cons.1 hin with hx | hx
          · exact he hx
          · exact hnd hx
        · intro hni hin
          exact hni (by rw [hdrop]; exact List.mem_cons_of_mem _ hin)
    · have hnil : facts.drop i = [] := List.drop_eq_nil_of_le (by omega)
      simp [removeLoop, h, hnil]

lemma removeLoop_false_absent (f : T) : ∀ (fuel : Nat) (facts : List T) (i : Nat),
    facts.length ≤ i + fuel → f ∉ facts.drop i →
    removeLoop f fuel facts i false = (facts, false) := by
  intro fuel
  induction fuel with
  | zero => intro facts i _ _; simp [removeLoop]
  | succ fuel ih =>
    intro facts i hle habs
    by_cases h : i < facts.length
    · have hdrop : facts.drop i = facts.get ⟨i, h⟩ :: facts.drop (i + 1) :=
        List.drop_eq_get_cons h
      rw [hdrop] at habs
      have he : ¬ f = facts.get ⟨i, h⟩ := fun e => habs (e ▸ List.mem_cons_self _ _)
      simp only [removeLoop, dif_pos h, if_neg he]
      exact ih facts (i + 1) (by omega) (fun m => habs (List.mem_cons_of_mem _ m))
    · simp [removeLoop, h]

lemma removeLoop_false_present (f : T) : ∀ (fuel : Nat) (facts : List T) (i : Nat),
    facts.length ≤ i + fuel → f ∉ facts.take i → f ∈ facts.drop i →
    ((removeLoop f fuel facts i false).1.count f) + 1 = facts.count f ∧
    (∀ g, g ≠ f → (removeLoop f fuel facts i false).1.count g = facts.count g) ∧
    ((removeLoop f fuel facts i false).1.length) + 1 = facts.length ∧
    ((removeLoop f fuel facts i false).2 = true ↔ facts.count f = 1) := by
  intro fuel
  induction fuel with
  | zero =>
    intro facts i hle _ hmem
    rw [List.drop_eq_nil_of_le (by omega)] at hmem
    exact absurd hmem (List.not_mem_nil f)
  | succ fuel ih =>
    intro facts i hle htake hmem
    by_cases h : i < facts.length
    · have hdrop : facts.drop i = facts.get ⟨i, h⟩ :: facts.drop (i + 1) :=
        List.drop_eq_get_cons h
      by_cases he : f = facts.get ⟨i, h⟩
      · -- first occurrence found at index i: swap-remove it, continue with
        -- unique = true
        have hred : removeLoop f (fuel + 1) facts i false
            = removeLoop f fuel (swapRemove facts i) i true := by
          simp [removeLoop, h, he]
        rw [hred]
        obtain ⟨hsl, hst, hsc⟩ := swapRemove_spec h
        have hcond : (swapRemove facts i).length ≤ i + fuel := by omega
        have htr := removeLoop_true_spec f fuel (swapRemove facts i) i hcond
        rw [htr.1]
        have hcf : (swapRemove facts i).count f + 1 = facts.count f := by
          have := hsc f
          rw [if_pos he.symm] at this
          omega
        have hcg : ∀ g, g ≠ f → (swapRemove facts i).count g = facts.count g := by
          intro g hg
          have := hsc g
          rw [if_neg (fun e => hg (by rw [← e, he]))] at this
          omega
        refine ⟨hcf, hcg, by omega, ?_⟩
        rw [htr.2]
        -- f not in the scanned prefix, and the prefix is preserved
        have hsw_mem : f ∉ (swapRemove facts i).drop i ↔ f ∉ swapRemove facts i := by
          constructor
          · intro hnd hin
            rcases (List.mem_append.1
              (by rw [List.take_append_drop i (swapRemove facts i)]; exact hin)) with hx | hx
            · exact htake (hst ▸ hx)
            · exact hnd hx
          · intro hni hin
            exact hni (List.mem_of_mem_drop hin)
        rw [hsw_mem]
        have : f ∉ swapRemove facts i ↔ (swapRemove facts i).count f = 0 :=
          Iff.symm List.count_eq_zero
        rw [this]
        omega
      · have hrec := ih facts (i + 1) (by omega)
          (by
            intro hmem'
            rw [List.take_succ] at hmem'
            rcases List.mem_append.1 hmem' with hx | hx
            · exact htake hx
            · rw [List.getElem?_eq_getElem h] at hx
              simp at hx
              exact he hx)
          (by
            rw [hdrop] at hmem
            rcases List.mem_cons.1 hmem with hx | hx
            · exact absurd hx he
            · exact hx)
        simp only [removeLoop, dif_pos h, if_neg he]
        exact hrec
    · rw [List.drop_eq_nil_of_le (by omega)] at hmem
      exact absurd hmem (List.not_mem_nil f)

/-! ## `removeOne` / `remove_from`: multiset-level contract -/

lemma removeOne_absent (f : T) (cache : Finset T) (facts : List T)
    (h : f ∉ facts) : removeOne f cache facts = (cache, facts) := by
  have h0 : removeLoop f facts.length facts 0 false = (facts, false) :=
    removeLoop_false_absent f facts.length facts 0 (by omega) (by simpa using h)
  unfold removeOne
  rw [h0]
  simp

lemma removeOne_present (f : T) (cache : Finset T) (facts : List T)
    (h : f ∈ facts) :
    ((removeOne f cache facts).2.count f) + 1 = facts.count f ∧
    (∀ g, g ≠ f → (removeOne f cache facts).2.count g = facts.count g) ∧
    ((removeOne f cache facts).2.length) + 1 = facts.length ∧
    (removeOne f cache facts).1 =
      (if facts.count f = 1 then cache.erase f else cache) := by
  have hs := removeLoop_false_present f facts.length facts 0 (by omega)
    (by simp) (by simpa using h)
  have h1 : (removeOne f cache facts).2
      = (removeLoop f facts.length facts 0 false).1 := by
    unfold removeOne
    rcases removeLoop f facts.length facts 0 false with ⟨fs2, u⟩
    simp
  have h2 : (removeOne f cache facts).1 =
      (if (removeLoop f facts.length facts 0 false).2
       then cache.erase f else cache) := by
    unfold removeOne
    rcases removeLoop f facts.length facts 0 false with ⟨fs2, u⟩
    simp
  refine ⟨by rw [h1]; exact hs.1, fun g hg => by rw [h1]; exact hs.2.1 g hg,
    by rw [h1]; exact hs.2.2.1, ?_⟩
  rw [h2]
  by_cases hc : facts.count f = 1
  · rw [if_pos hc, if_pos (hs.2.2.2.mpr hc)]
  · rw [if_neg hc, if_neg (fun e => hc (hs.2.2.2.mp e))]

lemma removeOne_I1 (f : T) (cache : Finset T) (facts : List T)
    (h : invariantI1 cache facts) :
    invariantI1 (removeOne f cache facts).1 (removeOne f cache facts).2 := by
  by_cases hm : f ∈ facts
  · obtain ⟨hcf, hcg, hlen, hcache⟩ := removeOne_present f cache facts hm
    have hcpos : 0 < facts.count f := List.count_pos_iff.2 hm
    intro g
    rw [hcache]
    by_cases hg : g = f
    · subst hg
      by_cases hc : facts.count g = 1
      · rw [if_pos hc]
        have hnotin : g ∉ (removeOne g cache facts).2 :=
          List.count_eq_zero.1 (by omega)
        exact iff_of_false (by simp) hnotin
      · rw [if_neg hc]
        have hin : g ∈ (removeOne g cache facts).2 :=
          List.count_pos_iff.1 (by omega)
        exact iff_of_true ((h g).2 hm) hin
    · have hcount := hcg g hg
      have hmemiff : g ∈ (removeOne f cache facts).2 ↔ g ∈ facts := by
        rw [← List.count_pos_iff, ← List.count_pos_iff, hcount]
      by_cases hc : facts.count f = 1
      · rw [if_pos hc, Finset.mem_erase]
        constructor
        · intro hx; exact hmemiff.2 ((h g).1 hx.2)
        · intro hx; exact ⟨hg, (h g).2 (hmemiff.1 hx)⟩
      · rw [if_neg hc]
        exact (h g).trans hmemiff.symm
  · rw [removeOne_absent f cache facts hm]
    exact h

lemma remove_from_cons (a : T) (as : List T) (cache : Finset T)
    (facts : List T) :
    remove_from (a :: as) cache facts
      = remove_from as (removeOne a cache facts).1 (removeOne a cache facts).2 := by
  unfold remove_from
  simp

lemma remove_from_I1 (fs : List T) :
    ∀ (cache : Finset T) (facts : List T), invariantI1 cache facts →
    invariantI1 (remove_from fs cache facts).1 (remove_from fs cache facts).2 := by
  induction fs with
  | nil => intro cache facts h; exact h
  | cons a as ih =>
    intro cache facts h
    rw [remove_from_cons]
    exact ih _ _ (removeOne_I1 a cache facts h)

/-! ## `replaceLoop` / `replaceFn`: contract of the in-place replacement -/

lemma replaceLoop_true_spec (f t : T) : ∀ (fuel : Nat) (facts : List T) (i : Nat),
    facts.length ≤ i + fuel →
    (replaceLoop f t fuel facts i true).1 = facts ∧
    ((replaceLoop f t fuel facts i true).2 = true ↔ f ∉ facts.drop i) := by
  intro fuel
  induction fuel with
  | zero =>
    intro facts i hle
    have hnil : facts.drop i = [] := List.drop_eq_nil_of_le (by omega)
    simp [replaceLoop, hnil]
  | succ fuel ih =>
    intro facts i hle
    by_cases h : i < facts.length
    · have hdrop : facts.drop i = facts.get ⟨i, h⟩ :: facts.drop (i + 1) :=
        List.drop_eq_get_cons h
      by_cases he : f = facts.get ⟨i, h⟩
      · have hmem : f ∈ facts.drop i := by
          rw [hdrop]; exact he ▸ List.mem_cons_self _ _
        have hred : replaceLoop f t (fuel + 1) facts i true = (facts, false) := by
          simp [replaceLoop, h, he]
        rw [hred]
        exact ⟨rfl, by simpa using hmem⟩
      · have hrec := ih facts (i + 1) (by omega)
        simp only [replaceLoop, dif_pos h, if_neg he]
        refine ⟨hrec.1, ?_⟩
        rw [hrec.2]
        constructor
        · intro hnd hin
          rw [hdrop] at hin
          rcases List.mem_cons.1 hin with hx | hx
          · exact he hx
          · exact hnd hx
        · intro hni hin
          exact hni (by rw [hdrop]; exact List.mem_cons_of_mem _ hin)
    · have hnil : facts.drop i = [] := List.drop_eq_nil_of_le (by omega)
      simp [replaceLoop, h, hnil]

lemma replaceLoop_false_absent (f t : T) : ∀ (fuel : Nat) (facts : List T) (i : Nat),
    facts.length ≤ i + fuel → f ∉ facts.drop i →
    replaceLoop f t fuel facts i false = (facts, false) := by
  intro fuel
  induction fuel with
  | zero => intro facts i _ _; simp [replaceLoop]
  | succ fuel ih =>
    intro facts i hle habs
    by_cases h : i < facts.length
    · have hdrop : facts.drop i = facts.get ⟨i, h⟩ :: facts.drop (i + 1) :=
        List.drop_eq_get_cons h
      rw [hdrop] at habs
      have he : ¬ f = facts.get ⟨i, h⟩ := fun e => habs (e ▸ List.mem_cons_self _ _)
      simp only [replaceLoop, dif_pos h, if_neg he]
      exact ih facts (i + 1) (by omega) (fun m => habs (List.mem_cons_of_mem _ m))
    · simp [replaceLoop, h]

lemma replaceLoop_false_present (f t : T) : ∀ (fuel : Nat) (facts : List T) (i : Nat),
    facts.length ≤ i + fuel → f ∉ facts.take i → f ∈ facts.drop i →
    ∃ j, i ≤ j ∧ ∃ hj : j < facts.length, facts.get ⟨j, hj⟩ = f ∧
      (replaceLoop f t fuel facts i false).1 = facts.set j t ∧
      ((replaceLoop f t fuel facts i false).2 = true ↔ facts.count f = 1) := by
  intro fuel
  induction fuel with
  | zero =>
    intro facts i hle _ hmem
    rw [List.drop_eq_nil_of_le (by omega)] at hmem
    exact absurd hmem (List.not_mem_nil f)
  | succ fuel ih =>
    intro facts i hle htake hmem
    by_cases h : i < facts.length
    · have hdrop : facts.drop i = facts.get ⟨i, h⟩ :: facts.drop (i + 1) :=
        List.drop_eq_get_cons h
      by_cases he : f = facts.get ⟨i, h⟩
      · have hred : replaceLoop f t (fuel + 1) facts i false
            = replaceLoop f t fuel (facts.set i t) (i + 1) true := by
          simp [replaceLoop, h, he]
        have hcond : (facts.set i t).length ≤ (i + 1) + fuel := by
          simp; omega
        have htr := replaceLoop_true_spec f t fuel (facts.set i t) (i + 1) hcond
        refine ⟨i, Nat.le_refl i, h, he.symm, ?_, ?_⟩
        · rw [hred, htr.1]
        · rw [hred, htr.2]
          -- the region above i+1 of the set list is the region above i+1 of
          -- the original, and `count f facts` decomposes at position i
          have hds : (facts.set i t).drop (i + 1) = facts.drop (i + 1) := by
            rw [List.set_eq_take_cons_drop t h]
            have hlt : (facts.take i ++ [t]).length = i + 1 := by
              simp [List.length_take]; omega
            calc ((facts.take i ++ t :: facts.drop (i + 1))).drop (i + 1)
                = ((facts.take i ++ [t]) ++ facts.drop (i + 1)).drop (i + 1) := by
                  simp
              _ = facts.drop (i + 1) := List.drop_left' hlt
          rw [hds]
          have hcnt : facts.count f = 1 + (facts.drop (i + 1)).count f := by
            conv_lhs =>
              rw [← List.take_append_drop i facts, hdrop]
            rw [List.count_append, ← List.singleton_append, List.count_append,
              count_one, if_pos he.symm]
            have : (facts.take i).count f = 0 :=
              List.count_eq_zero.2 htake
            omega
          constructor
          · intro hnd
            have : (facts.drop (i + 1)).count f = 0 :=
              List.count_eq_zero_of_not_mem hnd
            omega
          · intro hc
            exact List.count_eq_zero.1 (by omega)
      · have hrec := ih facts (i + 1) (by omega)
          (by
            intro hmem'
            rw [List.take_succ] at hmem'
            rcases List.mem_append.1 hmem' with hx | hx
            · exact htake hx
            · rw [List.getElem?_eq_getElem h] at hx
              simp at hx
              exact he hx)
          (by
            rw [hdrop] at hmem
            rcases List.mem_cons.1 hmem with hx | hx
            · exact absurd hx he
            · exact hx)
        obtain ⟨j, hij, hj, hget, hres, hflag⟩ := hrec
        refine ⟨j, by omega, hj, hget, ?_, ?_⟩
        · rw [show replaceLoop f t (fuel + 1) facts i false
              = replaceLoop f t fuel facts (i + 1) false by
                simp only [replaceLoop, dif_pos h, if_neg he]]
          exact hres
        · rw [show replaceLoop f t (fuel + 1) facts i false
              = replaceLoop f t fuel facts (i + 1) false by
                simp only [replaceLoop, dif_pos h, if_neg he]]
          exact hflag
    · rw [List.drop_eq_nil_of_le (by omega)] at hmem
      exact absurd hmem (List.not_mem_nil f)

lemma set_count (l : List T) (j : Nat) (hj : j < l.length) (a g : T) :
    (l.set j a).count g + (if l.get ⟨j, hj⟩ = g then 1 else 0)
      = l.count g + (if a = g then 1 else 0) := by
  have hdec := List.set_eq_take_cons_drop a hj
  have hl : l = l.take j ++ l.get ⟨j, hj⟩ :: l.drop (j + 1) := by
    conv_lhs => rw [← List.take_append_drop j l]
    rw [List.drop_eq_getElem_cons hj]
    rfl
  rw [hdec, List.count_append, ← List.singleton_append, List.count_append,
    count_one]
  conv_rhs => rw [hl]
  rw [List.count_append, ← List.singleton_append, List.count_append, count_one]
  omega

lemma set_self (l : List T) (j : Nat) (hj : j < l.length) :
    l.set j (l.get ⟨j, hj⟩) = l := by
  rw [List.set_eq_take_cons_drop _ hj]
  conv_rhs => rw [← List.take_append_drop j l, List.drop_eq_getElem_cons hj]
  rfl

lemma replaceFn_absent (f t : T) (cache : Finset T) (facts : List T)
    (h : f ∉ facts) : replaceFn f t cache facts = (cache, facts) := by
  have h0 : replaceLoop f t facts.length facts 0 false = (facts, false) :=
    replaceLoop_false_absent f t facts.length facts 0 (by omega)
      (by simpa using h)
  unfold replaceFn
  rw [h0]
  simp

lemma replaceFn_present (f t : T) (cache : Finset T) (facts : List T)
    (h : f ∈ facts) :
    ∃ j, ∃ hj : j < facts.length, facts.get ⟨j, hj⟩ = f ∧
      (replaceFn f t cache facts).2 = facts.set j t ∧
      (replaceFn f t cache facts).1 =
        (if facts.count f = 1 then cache.erase f else cache) := by
  obtain ⟨j, _, hj, hget, hres, hflag⟩ :=
    replaceLoop_false_present f t facts.length facts 0 (by omega) (by simp)
      (by simpa using h)
  have h1 : (replaceFn f t cache facts).2
      = (replaceLoop f t facts.length facts 0 false).1 := by
    unfold replaceFn
    rcases replaceLoop f t facts.length facts 0 false with ⟨fs2, u⟩
    simp
  have h2 : (replaceFn f t cache facts).1 =
      (if (replaceLoop f t facts.length facts 0 false).2
       then cache.erase f else cache) := by
    unfold replaceFn
    rcases replaceLoop f t facts.length facts 0 false with ⟨fs2, u⟩
    simp
  refine ⟨j, hj, hget, by rw [h1, hres], ?_⟩
  rw [h2]
  by_cases hc : facts.count f = 1
  · rw [if_pos hc, if_pos (hflag.mpr hc)]
  · rw [if_neg hc, if_neg (fun e => hc (hflag.mp e))]

lemma mem_foldl_insert (ts : List T) : ∀ (c : Finset T) (g : T),
    g ∈ ts.foldl (fun c a => insert a c) c ↔ g ∈ c ∨ g ∈ ts := by
  induction ts with
  | nil => intro c g; simp
  | cons a as ih =>
    intro c g
    rw [List.foldl_cons, ih]
    simp only [Finset.mem_insert, List.mem_cons]
    tauto

/-- I1 is preserved by any applied verb, provided an applied `SimplifyOne`
has its `from` (or already its `to`) occurring in the fact list. -/
lemma applyInference_I1 (x : Inference T) (cache : Finset T) (facts : List T)
    (h : invariantI1 cache facts)
    (hok : ∀ f t, x = Inference.SimplifyOne f t → f ∈ facts ∨ t ∈ facts) :
    invariantI1 (applyInference x cache facts).1
      (applyInference x cache facts).2 := by
  cases x with
  | ManyTrue fs => exact remove_from_I1 fs cache facts h
  | OneTrue f => exact remove_from_I1 [f] cache facts h
  | Simplify fs t =>
    intro g
    simp only [applyInference]
    rw [Finset.mem_insert, List.mem_append]
    have hg := remove_from_I1 fs cache facts h g
    simp only [List.mem_singleton]
    tauto
  | SimplifyMany fs ts =>
    intro g
    simp only [applyInference]
    rw [mem_foldl_insert, List.mem_append]
    have hg := remove_from_I1 fs cache facts h g
    tauto
  | Propagate t =>
    intro g
    simp only [applyInference]
    rw [Finset.mem_insert, List.mem_append]
    have hg := h g
    simp only [List.mem_singleton]
    tauto
  | SimplifyOne f t =>
    by_cases hf : f ∈ facts
    · obtain ⟨j, hj, hget, hres, hcache⟩ := replaceFn_present f t cache facts hf
      intro g
      simp only [applyInference]
      rw [Finset.mem_insert, hres, hcache]
      have hcnt := set_count facts j hj t g
      rw [hget] at hcnt
      have hfpos : 0 < facts.count f := List.count_pos_iff.2 hf
      by_cases hgt : g = t
      · subst hgt
        apply iff_of_true (Or.inl rfl)
        rw [List.set_eq_take_cons_drop _ hj]
        exact List.mem_append.2 (Or.inr (List.mem_cons_self _ _))
      · have h2 : (if t = g then 1 else 0) = 0 := if_neg (fun e => hgt e.symm)
        rw [h2] at hcnt
        by_cases hgf : g = f
        · subst hgf
          rw [if_pos rfl] at hcnt
          by_cases hone : facts.count g = 1
          · rw [if_pos hone]
            apply iff_of_false
            · intro hx
              rcases hx with hx | hx
              · exact hgt hx
              · exact (Finset.mem_erase.1 hx).1 rfl
            · intro hx
              have := List.count_pos_iff.2 hx
              omega
          · rw [if_neg hone]
            apply iff_of_true (Or.inr ((h g).2 hf))
            exact List.count_pos_iff.1 (by omega)
        · have h1 : (if f = g then 1 else 0) = 0 := if_neg (fun e => hgf e.symm)
          rw [h1] at hcnt
          have hmem2 : g ∈ facts.set j t ↔ g ∈ facts := by
            rw [← List.count_pos_iff, ← List.count_pos_iff]
            omega
          rw [hmem2]
          by_cases hone : facts.count f = 1
          · rw [if_pos hone]
            constructor
            · intro hx
              rcases hx with hx | hx
              · exact absurd hx hgt
              · exact (h g).1 (Finset.mem_erase.1 hx).2
            · intro hx
              exact Or.inr (Finset.mem_erase.2 ⟨hgf, (h g).2 hx⟩)
          · rw [if_neg hone]
            constructor
            · intro hx
              rcases hx with hx | hx
              · exact absurd hx hgt
              · exact (h g).1 hx
            · intro hx
              exact Or.inr ((h g).2 hx)
    · have ht : t ∈ facts := by
        rcases hok f t rfl with hx | hx
        · exact absurd hx hf
        · exact hx
      intro g
      simp only [applyInference]
      rw [replaceFn_absent f t cache facts hf]
      constructor
      · intro hx
        rcases Finset.mem_insert.1 hx with hx | hx
        · subst hx; exact ht
        · exact (h g).1 hx
      · intro hx
        exact Finset.mem_insert.2 (Or.inr ((h g).2 hx))

lemma count_filter_of_pred (p : T → Bool) (g : T) (hp : p g = true) :
    ∀ l : List T, (l.filter p).count g = l.count g := by
  intro l
  induction l with
  | nil => rfl
  | cons a as ih =>
    by_cases ha : p a
    · rw [List.filter_cons_of_pos ha, List.count_cons, List.count_cons, ih]
    · rw [List.filter_cons_of_neg ha, ih, List.count_cons]
      have hag : ¬ a = g := fun e => ha (e ▸ hp)
      simp [hag]

lemma count_take_drop (g : T) (l : List T) (i : Nat) :
    l.count g = (l.take i).count g + (l.drop i).count g := by
  conv_lhs => rw [← List.take_append_drop i l]
  rw [List.count_append]

lemma swapRemove_drop_count {ts : List T} {i : Nat} (h : i < ts.length) (g : T) :
    ((swapRemove ts i).drop i).count g + (if ts.get ⟨i, h⟩ = g then 1 else 0)
      = (ts.drop i).count g := by
  obtain ⟨hsl, hst, hsc⟩ := swapRemove_spec h
  have h1 := hsc g
  have h2 := count_take_drop g (swapRemove ts i) i
  have h3 := count_take_drop g ts i
  rw [hst] at h2
  omega

lemma swapRemove_drop_subset {ts : List T} {i : Nat} (h : i < ts.length) :
    ∀ x, x ∈ (swapRemove ts i).drop i → x ∈ ts.drop (i + 1) := by
  intro x hx
  have h1 := swapRemove_drop_count h x
  have hdrop : ts.drop i = ts.get ⟨i, h⟩ :: ts.drop (i + 1) :=
    List.drop_eq_get_cons h
  have h2 : (ts.drop i).count x =
      (if ts.get ⟨i, h⟩ = x then 1 else 0) + (ts.drop (i + 1)).count x := by
    rw [hdrop, ← List.singleton_append, List.count_append, count_one]
  have h3 := List.count_pos_iff.2 hx
  exact List.count_pos_iff.1 (by omega)

lemma replaceManyLoop_count (cache : Finset T) : ∀ (i : Nat) (ts : List T),
    (∀ x ∈ ts.drop i, x ∉ cache) →
    ∀ g, (replaceManyLoop cache i ts).count g
      = ((ts.take i).filter (fun x => decide (x ∉ cache))).count g
        + (ts.drop i).count g := by
  intro i
  induction i with
  | zero => intro ts hinv g; simp [replaceManyLoop]
  | succ i ih =>
    intro ts hinv g
    by_cases h : i < ts.length
    · have hgg : ts.get ⟨i, h⟩ = ts[i] := rfl
      have hget : ts[i]? = some ts[i] := List.getElem?_eq_getElem h
      have hdrop : ts.drop i = ts[i] :: ts.drop (i + 1) :=
        List.drop_eq_getElem_cons h
      have htk : ts.take (i + 1) = ts.take i ++ [ts[i]] := by
        rw [List.take_succ, hget]
        rfl
      have hdc : (ts.drop i).count g =
          (if ts[i] = g then 1 else 0) + (ts.drop (i + 1)).count g := by
        rw [hdrop, ← List.singleton_append, List.count_append, count_one]
      by_cases hc : ts[i] ∈ cache
      · have hred : replaceManyLoop cache (i + 1) ts
            = replaceManyLoop cache i (swapRemove ts i) := by
          simp [replaceManyLoop, hget, hc]
        obtain ⟨hsl, hst, hsc⟩ := swapRemove_spec h
        have hinv2 : ∀ x ∈ (swapRemove ts i).drop i, x ∉ cache := by
          intro x hx
          exact hinv x (swapRemove_drop_subset h x hx)
        have hih := ih (swapRemove ts i) hinv2 g
        rw [hred, hih, hst]
        have hfil : ((ts.take (i + 1)).filter
            (fun x => decide (x ∉ cache))).count g
            = ((ts.take i).filter (fun x => decide (x ∉ cache))).count g := by
          rw [htk, List.filter_append]
          have hsing : List.filter (fun x => decide (x ∉ cache)) [ts[i]]
              = [] := by
            simp [List.filter, hc]
          rw [hsing, List.append_nil]
        rw [hfil]
        have hsw := swapRemove_drop_count h g
        rw [hgg] at hsw
        omega
      · have hred : replaceManyLoop cache (i + 1) ts
            = replaceManyLoop cache i ts := by
          simp [replaceManyLoop, hget, hc]
        have hinv2 : ∀ x ∈ ts.drop i, x ∉ cache := by
          intro x hx
          rw [hdrop] at hx
          rcases List.mem_cons.1 hx with hx | hx
          · subst hx; exact hc
          · exact hinv x hx
        have hih := ih ts hinv2 g
        rw [hred, hih]
        have hfil : ((ts.take (i + 1)).filter
            (fun x => decide (x ∉ cache))).count g
            = ((ts.take i).filter (fun x => decide (x ∉ cache))).count g
              + (if ts[i] = g then 1 else 0) := by
          rw [htk, List.filter_append]
          have hsing : List.filter (fun x => decide (x ∉ cache)) [ts[i]]
              = [ts[i]] := by
            simp [List.filter, hc]
          rw [hsing, List.count_append, count_one]
        omega
    · have hget : ts[i]? = none := by
        rw [List.getElem?_eq_none]
        omega
      have hred : replaceManyLoop cache (i + 1) ts
          = replaceManyLoop cache i ts := by
        simp [replaceManyLoop, hget]
      have htk1 : ts.take (i + 1) = ts := List.take_of_length_le (by omega)
      have htk0 : ts.take i = ts := List.take_of_length_le (by omega)
      have hd1 : ts.drop (i + 1) = [] := List.drop_eq_nil_of_le (by omega)
      have hd0 : ts.drop i = [] := List.drop_eq_nil_of_le (by omega)
      have hinv2 : ∀ x ∈ ts.drop i, x ∉ cache := by
        rw [hd0]; intro x hx; exact absurd hx (List.not_mem_nil x)
      have hih := ih ts hinv2 g
      rw [hred, hih, htk1, htk0, hd1, hd0]

/-! ## Claim theorems: mutation primitives and checked constructors -/

/-- C3 (amended): `remove_from` processes a target `f` by a single scan
that removes *at most one* occurrence (so in particular at most two
matching positions are touched), and it drops `f` from the presence cache
exactly when `f` occurred exactly once in the multiset — not whenever
exactly one occurrence was removed. -/
theorem remove_from_target_contract (f : T) (cache : Finset T)
    (facts : List T) :
    facts.length ≤ (removeOne f cache facts).2.length + 1 ∧
    (removeOne f cache facts).2.count f = facts.count f - 1 ∧
    (removeOne f cache facts).1
      = (if facts.count f = 1 then cache.erase f else cache) := by
  by_cases hm : f ∈ facts
  · obtain ⟨h1, h2, h3, h4⟩ := removeOne_present f cache facts hm
    exact ⟨by omega, by omega, h4⟩
  · have h1 := removeOne_absent f cache facts hm
    have h0 : facts.count f = 0 := List.count_eq_zero_of_not_mem hm
    have e2 : (removeOne f cache facts).2 = facts := by rw [h1]
    have e1 : (removeOne f cache facts).1 = cache := by rw [h1]
    refine ⟨by rw [e2]; omega, by rw [e2]; omega, ?_⟩
    rw [e1, if_neg (show ¬facts.count f = 1 by omega)]

/-- C3 counterexample: on `facts = [0,0]`, target `0`, exactly one
occurrence is removed (length 2 becomes 1), but `0` is *not* dropped from
the presence set — so "drops `f` whenever exactly one occurrence was
removed" is false. -/
theorem remove_from_drop_counterexample :
    (removeOne 0 ({0} : Finset Nat) [0, 0]).2.length = 1 ∧
    (0 : Nat) ∈ (removeOne 0 ({0} : Finset Nat) [0, 0]).1 := by
  decide

/-- C5: `Inference::replace_one` returns `OneTrue from` when `to` is in
the presence cache, and `SimplifyOne from to` otherwise; likewise
`Inference::replace` returns `ManyTrue from` / `Simplify from to`. -/
theorem replace_checked_correct (f : T) (fs : List T) (t : T)
    (cache : Finset T) :
    (t ∈ cache → Inference.replace_one f t cache = Inference.OneTrue f
        ∧ Inference.replace fs t cache = Inference.ManyTrue fs) ∧
    (t ∉ cache → Inference.replace_one f t cache = Inference.SimplifyOne f t
        ∧ Inference.replace fs t cache = Inference.Simplify fs t) := by
  constructor
  · intro h
    constructor <;> simp [Inference.replace_one, Inference.replace, h]
  · intro h
    constructor <;> simp [Inference.replace_one, Inference.replace, h]

/-- Witness for C5 at concrete inputs (both branches). -/
theorem replace_checked_correct_witness :
    ((0 : Nat) ∈ ({0} : Finset Nat) ∧
      (Inference.replace_one 1 0 ({0} : Finset Nat) = Inference.OneTrue 1 ∧
        Inference.replace [1] 0 ({0} : Finset Nat) = Inference.ManyTrue [1])) ∧
    ((0 : Nat) ∉ (∅ : Finset Nat) ∧
      (Inference.replace_one 1 0 (∅ : Finset Nat) = Inference.SimplifyOne 1 0 ∧
        Inference.replace [1] 0 (∅ : Finset Nat) = Inference.Simplify [1] 0)) :=
  ⟨⟨by decide, (replace_checked_correct 1 [1] 0 {0}).1 (by decide)⟩,
   ⟨by decide, (replace_checked_correct 1 [1] 0 ∅).2 (by decide)⟩⟩

/-- C6: `Inference::replace_many` passes `from` through unchanged and
filters from `to` every element already in the presence cache: each fact
present in the cache has no occurrence left, and each other fact keeps its
multiplicity (the surviving entries may be reordered by `swap_remove`, which
is invisible at the multiset level used here). -/
theorem replace_many_checked_correct (fs ts : List T) (cache : Finset T) :
    Inference.replace_many fs ts cache
      = Inference.SimplifyMany fs (replaceManyLoop cache ts.length ts) ∧
    ∀ g, (replaceManyLoop cache ts.length ts).count g
      = if g ∈ cache then 0 else ts.count g := by
  refine ⟨rfl, fun g => ?_⟩
  have hinv : ∀ x ∈ ts.drop ts.length, x ∉ cache := by
    rw [List.drop_eq_nil_of_le (Nat.le_refl _)]
    intro x hx
    exact absurd hx (List.not_mem_nil x)
  have h := replaceManyLoop_count cache ts.length ts hinv g
  rw [List.take_of_length_le (Nat.le_refl _),
    List.drop_eq_nil_of_le (Nat.le_refl _)] at h
  rw [h, List.count_nil]
  by_cases hg : g ∈ cache
  · rw [if_pos hg]
    have hnm : g ∉ ts.filter (fun x => decide (x ∉ cache)) := by
      intro hx
      have := List.of_mem_filter hx
      simp at this
      exact this hg
    rw [List.count_eq_zero_of_not_mem hnm]
  · rw [if_neg hg]
    rw [count_filter_of_pred _ g (by simp [hg]) ts]
    omega

/-- C7: a `ConsumeOne` (or any `ConsumeMany` element) whose fact has
zero occurrences is a complete no-op on both the fact multiset and the
presence set, and therefore preserves invariant I1. -/
theorem consume_absent_noop (f : T) (cache : Finset T) (facts : List T)
    (h : facts.count f = 0) :
    removeOne f cache facts = (cache, facts) ∧
    applyInference (Inference.OneTrue f) cache facts = (cache, facts) ∧
    (invariantI1 cache facts →
      invariantI1 (applyInference (Inference.OneTrue f) cache facts).1
        (applyInference (Inference.OneTrue f) cache facts).2) := by
  have hm : f ∉ facts := List.count_eq_zero.1 h
  have h1 : removeOne f cache facts = (cache, facts) :=
    removeOne_absent f cache facts hm
  have h2 : applyInference (Inference.OneTrue f) cache facts
      = (cache, facts) := by
    show remove_from [f] cache facts = (cache, facts)
    rw [remove_from_cons, h1]
    rfl
  exact ⟨h1, h2, fun hI => by rw [h2]; exact hI⟩

/-- Witness for C7: `ConsumeOne 5` on `[1, 2]` changes nothing. -/
theorem consume_absent_noop_witness :
    List.count 5 [1, 2] = 0 ∧
    (removeOne 5 (List.toFinset [1, 2]) [1, 2]
        = (List.toFinset [1, 2], [1, 2]) ∧
      applyInference (Inference.OneTrue 5) (List.toFinset [1, 2]) [1, 2]
        = (List.toFinset [1, 2], [1, 2]) ∧
      (invariantI1 (List.toFinset [1, 2]) [1, 2] →
        invariantI1
          (applyInference (Inference.OneTrue 5)
            (List.toFinset [1, 2]) [1, 2]).1
          (applyInference (Inference.OneTrue 5)
            (List.toFinset [1, 2]) [1, 2]).2)) :=
  ⟨by decide, consume_absent_noop 5 (List.toFinset [1, 2]) [1, 2] (by decide)⟩

/-- C8 (amended): `ReplaceOne(f, f)` leaves the fact multiset unchanged,
and leaves the presence set unchanged *provided `f` is in the presence set*
(in particular whenever `f` occurs in the multiset and I1 holds).  When `f`
is absent the verb still inserts `f` into the presence set, so the
unconditional claim is false (see the counterexample). -/
theorem replace_one_self_noop (f : T) (cache : Finset T) (facts : List T)
    (hc : f ∈ cache) :
    applyInference (Inference.SimplifyOne f f) cache facts = (cache, facts) := by
  by_cases hm : f ∈ facts
  · obtain ⟨j, hj, hget, hres, hcache⟩ := replaceFn_present f f cache facts hm
    simp only [applyInference]
    have hset : facts.set j f = facts := by
      conv_lhs => rw [← hget]
      exact set_self facts j hj
    rw [hres, hcache, hset]
    by_cases hone : facts.count f = 1
    · rw [if_pos hone, Finset.insert_erase hc]
    · rw [if_neg hone, Finset.insert_eq_self.2 hc]
  · have habs := replaceFn_absent f f cache facts hm
    simp only [applyInference, habs]
    rw [Finset.insert_eq_self.2 hc]

/-- Witness for C8 (amended) at `f = 0`, `facts = [0]`, presence `{0}`. -/
theorem replace_one_self_noop_witness :
    (0 : Nat) ∈ List.toFinset [0] ∧
    applyInference (Inference.SimplifyOne 0 0) (List.toFinset [0]) [0]
      = (List.toFinset [0], [0]) :=
  ⟨by decide, replace_one_self_noop 0 (List.toFinset [0]) [0] (by decide)⟩

/-- C8 counterexample: on the empty multiset (presence set `∅` per I1),
`ReplaceOne(0, 0)` leaves the facts unchanged but *changes* the presence
set from `∅` to `{0}`. -/
theorem replace_one_self_counterexample :
    applyInference (Inference.SimplifyOne 0 0) (List.toFinset ([] : List Nat)) []
      = ({0}, ([] : List Nat)) ∧
    ({0} : Finset Nat) ≠ List.toFinset ([] : List Nat) := by
  decide

/-- C10 (amended): `ReplaceOne(from, to)` with `from` absent from the
multiset leaves the fact sequence unchanged yet inserts `to` into the
presence set; when `to` itself has zero occurrences, the presence set then
contains a fact (`to`) with zero occurrences, breaking I1.  (The extra
hypothesis `to ∉ facts` is needed: if `to` already occurs, no
zero-occurrence fact need appear — see the counterexample.) -/
theorem replace_one_absent_pollutes (f t : T) (cache : Finset T)
    (facts : List T) (hne : t ≠ f) (hf : facts.count f = 0)
    (ht : facts.count t = 0) :
    applyInference (Inference.SimplifyOne f t) cache facts
      = (insert t cache, facts) ∧
    t ∈ (applyInference (Inference.SimplifyOne f t) cache facts).1 ∧
    (applyInference (Inference.SimplifyOne f t) cache facts).2.count t = 0 := by
  have hm : f ∉ facts := List.count_eq_zero.1 hf
  have habs := replaceFn_absent f t cache facts hm
  have h1 : applyInference (Inference.SimplifyOne f t) cache facts
      = (insert t cache, facts) := by
    simp only [applyInference, habs]
  refine ⟨h1, ?_, ?_⟩
  · rw [h1]; exact Finset.mem_insert_self t cache
  · rw [h1]; exact ht

/-- Witness for C10 (amended): `ReplaceOne(0, 1)` on `facts = [2]` with
presence `{2}`. -/
theorem replace_one_absent_pollutes_witness :
    ((1 : Nat) ≠ 0 ∧ List.count 0 [2] = 0 ∧ List.count 1 [2] = 0) ∧
    (applyInference (Inference.SimplifyOne 0 1) (List.toFinset [2]) [2]
        = (insert 1 (List.toFinset [2]), [2]) ∧
      1 ∈ (applyInference (Inference.SimplifyOne 0 1)
            (List.toFinset [2]) [2]).1 ∧
      (applyInference (Inference.SimplifyOne 0 1)
          (List.toFinset [2]) [2]).2.count 1 = 0) :=
  ⟨⟨by decide, by decide, by decide⟩,
    replace_one_absent_pollutes 0 1 (List.toFinset [2]) [2] (by decide)
      (by decide) (by decide)⟩

/-- C10 counterexample: with `from = 0` absent and `to = 1` already
occurring in `facts = [1]` (presence `{1}` per I1), the verb applies but
afterwards *no* fact in the presence set has zero occurrences — the
unconditional conclusion of C10 is false. -/
theorem replace_one_absent_counterexample :
    List.count 0 [1] = 0 ∧ (1 : Nat) ≠ 0 ∧
    (∀ g ∈ (applyInference (Inference.SimplifyOne 0 1)
        (List.toFinset [1]) [1]).1,
      0 < (applyInference (Inference.SimplifyOne 0 1)
        (List.toFinset [1]) [1]).2.count g) := by
  decide

/-- C9: one `ConsumeOne(f)` (equally: one listing of `f` in a
`ConsumeMany`/`Replace` target list) on a multiset with `k ≥ 1` occurrences
of `f` removes exactly one occurrence — leaving `k - 1`, however large `k`
is — keeps every other fact's multiplicity, and removes `f` from the
presence set iff `k = 1`. -/
theorem consume_one_multiplicity (f : T) (cache : Finset T) (facts : List T)
    (hc : f ∈ cache) (hk : 1 ≤ facts.count f) :
    (removeOne f cache facts).2.count f + 1 = facts.count f ∧
    (∀ g, g ≠ f → (removeOne f cache facts).2.count g = facts.count g) ∧
    (f ∉ (removeOne f cache facts).1 ↔ facts.count f = 1) := by
  have hm : f ∈ facts := List.count_pos_iff.1 (by omega)
  obtain ⟨h1, h2, h3, h4⟩ := removeOne_present f cache facts hm
  refine ⟨h1, h2, ?_⟩
  rw [h4]
  by_cases hone : facts.count f = 1
  · rw [if_pos hone]
    exact iff_of_true (Finset.not_mem_erase f cache) hone
  · rw [if_neg hone]
    exact iff_of_false (fun hx => hx hc) hone

/-- Witness for C9 at `f = 0`, `facts = [0, 0]` (k = 2). -/
theorem consume_one_multiplicity_witness :
    ((0 : Nat) ∈ ({0} : Finset Nat) ∧ 1 ≤ List.count 0 [0, 0]) ∧
    ((removeOne 0 ({0} : Finset Nat) [0, 0]).2.count 0 + 1
        = List.count 0 [0, 0] ∧
      (∀ g, g ≠ 0 → (removeOne 0 ({0} : Finset Nat) [0, 0]).2.count g
        = List.count g [0, 0]) ∧
      ((0 : Nat) ∉ (removeOne 0 ({0} : Finset Nat) [0, 0]).1 ↔
        List.count 0 [0, 0] = 1)) :=
  ⟨⟨by decide, by decide⟩,
    consume_one_multiplicity 0 {0} [0, 0] (by decide) (by decide)⟩

/-! ## The driver loop: stepping lemmas and the iteration-boundary invariant -/

lemma runFrom_succ_of_cont
    (orc : Nat → Finset T → List T → Option (Inference T))
    (s0 : LoopState T) (n : Nat) (s : LoopState T)
    (h : runFrom orc s0 n = StepResult.cont s) :
    runFrom orc s0 (n + 1) = solveStep orc n s := by
  simp [runFrom, h]

lemma runFrom_succ_of_done
    (orc : Nat → Finset T → List T → Option (Inference T))
    (s0 : LoopState T) (n : Nat) (r : List T)
    (h : runFrom orc s0 n = StepResult.done r) :
    runFrom orc s0 (n + 1) = StepResult.done r := by
  simp [runFrom, h]

lemma solveStepCont_cases
    (orc : Nat → Finset T → List T → Option (Inference T))
    (n : Nat) (s : LoopState T) :
    (solveStepCont orc n s = StepResult.done s.facts
        ∧ orc n s.cache s.facts = none) ∨
    (∃ x, orc n s.cache s.facts = some x ∧
      solveStepCont orc n s = StepResult.cont
        { cache := (applyInference x s.cache s.facts).1,
          filter := insert s.facts s.filter, st := s.st,
          facts := (applyInference x s.cache s.facts).2 }) := by
  unfold solveStepCont
  cases horc : orc n s.cache s.facts with
  | none => exact Or.inl ⟨rfl, rfl⟩
  | some x => exact Or.inr ⟨x, rfl, rfl⟩

lemma solveStepCont_cont_chars
    (orc : Nat → Finset T → List T → Option (Inference T))
    (n : Nat) (s1 s' : LoopState T)
    (h : solveStepCont orc n s1 = StepResult.cont s') :
    ∃ x, orc n s1.cache s1.facts = some x ∧
      s'.cache = (applyInference x s1.cache s1.facts).1 ∧
      s'.facts = (applyInference x s1.cache s1.facts).2 := by
  rcases solveStepCont_cases orc n s1 with ⟨hd, _⟩ | ⟨x, horc, hc⟩
  · rw [hd] at h; cases h
  · rw [hc] at h
    cases h
    exact ⟨x, horc, rfl, rfl⟩

lemma solveStep_cont_chars
    (orc : Nat → Finset T → List T → Option (Inference T))
    (n : Nat) (s s' : LoopState T)
    (h : solveStep orc n s = StepResult.cont s') :
    ∃ x, orc n s.cache s.facts = some x ∧
      s'.cache = (applyInference x s.cache s.facts).1 ∧
      s'.facts = (applyInference x s.cache s.facts).2 := by
  unfold solveStep at h
  split at h
  · split at h
    · obtain ⟨x, horc, hc, hf⟩ := solveStepCont_cont_chars orc n
        { s with st := SolverState.SearchMinimum s.facts, filter := ∅ } s' h
      exact ⟨x, horc, hc, hf⟩
    · exact solveStepCont_cont_chars orc n s s' h
  · split at h
    · cases h
    · split at h
      · obtain ⟨x, horc, hc, hf⟩ := solveStepCont_cont_chars orc n
          { s with st := SolverState.SearchMinimum s.facts } s' h
        exact ⟨x, horc, hc, hf⟩
      · exact solveStepCont_cont_chars orc n s s' h

/-- C2 (amended): invariant I1 holds at every iteration boundary of the
driver loop, for every initial fact list and every oracle — *provided* each
applied `SimplifyOne` verb has its `from` (or already its `to`) occurring in
the fact list at application time.  Without that proviso a `SimplifyOne`
whose `from` is absent inserts its `to` into the cache while leaving the
facts unchanged, which breaks I1 (see the counterexample). -/
theorem cache_correct_at_boundaries
    (orc : Nat → Finset T → List T → Option (Inference T)) (init : List T)
    (hok : ∀ n s f t, runFrom orc (initState init) n = StepResult.cont s →
      orc n s.cache s.facts = some (Inference.SimplifyOne f t) →
      f ∈ s.facts ∨ t ∈ s.facts) :
    ∀ n s, runFrom orc (initState init) n = StepResult.cont s →
      invariantI1 s.cache s.facts := by
  intro n
  induction n with
  | zero =>
    intro s h
    simp only [runFrom] at h
    cases h
    intro g
    simp [initState, List.mem_toFinset]
  | succ n ih =>
    intro s' h
    cases hn : runFrom orc (initState init) n with
    | done r =>
      rw [runFrom_succ_of_done orc (initState init) n r hn] at h
      cases h
    | cont s =>
      have hstep : solveStep orc n s = StepResult.cont s' := by
        rw [← runFrom_succ_of_cont orc (initState init) n s hn]
        exact h
      obtain ⟨x, horc, hc, hf⟩ := solveStep_cont_chars orc n s s' hstep
      have hI := ih s hn
      have happ := applyInference_I1 x s.cache s.facts hI
        (fun f t hx => hok n s f t hn (hx ▸ horc))
      intro g
      rw [hc, hf]
      exact happ g

/-- C2 counterexample: with `infer` constantly returning
`SimplifyOne 0 1` on the empty initial fact list, after one iteration the
cache contains `1` although the fact multiset (still empty) has no
occurrence of `1` — I1 fails at an iteration boundary. -/
theorem cache_correct_counterexample :
    runFrom (fun _ _ _ => some (Inference.SimplifyOne 0 1))
        (initState ([] : List Nat)) 1
      = StepResult.cont
          { cache := {1}, filter := {[]}, st := SolverState.Solving,
            facts := [] } ∧
    (1 : Nat) ∈ ({1} : Finset Nat) ∧ (1 : Nat) ∉ ([] : List Nat) := by
  refine ⟨by decide, by decide, by decide⟩

/-- Witness for C2: a propagation-only oracle on `[]`; after one iteration
I1 holds at the boundary. -/
theorem cache_correct_witness :
    runFrom (fun _ _ _ => some (Inference.Propagate 0))
        (initState ([] : List Nat)) 1
      = StepResult.cont
          { cache := {0}, filter := {[]}, st := SolverState.Solving,
            facts := [0] } ∧
    invariantI1 ({0} : Finset Nat) [0] := by
  constructor
  · decide
  · have h := cache_correct_at_boundaries
      (fun _ _ _ => some (Inference.Propagate 0)) []
      (fun n s f t h1 h2 => absurd h2 (by simp)) 1
      { cache := {0}, filter := {[]}, st := SolverState.Solving,
        facts := [0] }
      (by decide)
    exact h

/-! ## C4: fingerprint repetition vs termination -/

/-- Deterministic oracle for the C4 counterexample: pollute the cache with a
no-op `SimplifyOne 0 0` first (facts stay `[]`, so the fingerprint repeats),
then propagate `1` forever. -/
def g4 : Finset Nat → List Nat → Option (Inference Nat) :=
  fun c _ =>
    if 0 ∈ c then some (Inference.Propagate 1)
    else some (Inference.SimplifyOne 0 0)

lemma g4_invariant : ∀ n : Nat,
    runFrom (detOracle g4) (initState ([] : List Nat)) (n + 2)
      = StepResult.cont
        { cache := {1, 0},
          filter := ((List.range (n + 1)).map
            (fun k => List.replicate k 1)).toFinset,
          st := SolverState.SearchMinimum [],
          facts := List.replicate (n + 1) 1 } := by
  intro n
  induction n with
  | zero => rfl
  | succ n ih =>
    rw [show n + 1 + 2 = (n + 2) + 1 by omega]
    rw [runFrom_succ_of_cont _ _ _ _ ih]
    have hmem : (List.replicate (n + 1) 1 : List Nat) ∉
        ((List.range (n + 1)).map (fun k => List.replicate k 1)).toFinset := by
      intro hx
      rw [List.mem_toFinset, List.mem_map] at hx
      obtain ⟨k, hk, he⟩ := hx
      have hlen := congrArg List.length he
      simp only [List.length_replicate] at hlen
      rw [List.mem_range] at hk
      omega
    have hlen : ¬ (List.replicate (n + 1) (1 : Nat)).length
        < ([] : List Nat).length := by simp
    have horc : detOracle g4 (n + 2) ({1, 0} : Finset Nat)
        (List.replicate (n + 1) 1) = some (Inference.Propagate 1) := by
      unfold detOracle g4
      rw [if_pos (by decide)]
    have hcache : insert 1 ({1, 0} : Finset Nat) = {1, 0} := by decide
    have hfacts : List.replicate (n + 1) (1 : Nat) ++ [1]
        = List.replicate (n + 2) 1 := (List.replicate_succ' (n + 1) 1).symm
    have hfilt : insert (List.replicate (n + 1) (1 : Nat))
        (((List.range (n + 1)).map (fun k => List.replicate k 1)).toFinset)
        = ((List.range (n + 2)).map (fun k => List.replicate k 1)).toFinset := by
      apply Finset.ext
      intro l
      rw [Finset.mem_insert, List.mem_toFinset, List.mem_toFinset,
        List.mem_map, List.mem_map]
      constructor
      · rintro (rfl | ⟨k, hk, rfl⟩)
        · exact ⟨n + 1, by rw [List.mem_range]; omega, rfl⟩
        · rw [List.mem_range] at hk
          exact ⟨k, by rw [List.mem_range]; omega, rfl⟩
      · rintro ⟨k, hk, rfl⟩
        rw [List.mem_range] at hk
        by_cases hkn : k = n + 1
        · subst hkn; exact Or.inl rfl
        · exact Or.inr ⟨k, by rw [List.mem_range]; omega, rfl⟩
    simp only [solveStep, hmem, if_false, hlen, solveStepCont, horc,
      applyInference]
    rw [hcache, hfacts, hfilt]
  
/-- C4 counterexample: with the deterministic `g4` on initial facts `[]`,
the fact-multiset trajectory repeats its fingerprint (`F₀ = F₁ = []`), yet
the `solve_minimum` loop never terminates: after the spurious cycle
detection the cache-polluted oracle only propagates fresh facts, so no
fingerprint ever repeats again.  This refutes "terminates whenever a
fingerprint repeats" as stated (even for a deterministic `infer`). -/
theorem repeat_without_termination_counterexample :
    pureFacts g4 [] 0 = ([] : List Nat) ∧
    pureFacts g4 [] 1 = ([] : List Nat) ∧
    ∀ n r, runFrom (detOracle g4) (initState ([] : List Nat)) n
      ≠ StepResult.done r := by
  refine ⟨rfl, rfl, ?_⟩
  intro n r h
  cases n with
  | zero => simp [runFrom] at h
  | succ n' =>
    cases n' with
    | zero =>
      rw [show runFrom (detOracle g4) (initState ([] : List Nat)) 1
          = StepResult.cont
              { cache := {0}, filter := {[]}, st := SolverState.Solving,
                facts := [] } from rfl] at h
      cases h
    | succ m =>
      have h2 : runFrom (detOracle g4) (initState ([] : List Nat)) (m + 2)
          = StepResult.done r := h
      rw [g4_invariant m] at h2
      cases h2

lemma pureState_succ (g : Finset T → List T → Option (Inference T))
    (init : List T) (n : Nat) :
    pureState g init (n + 1) = pureStep g (pureState g init n) := rfl

lemma pureState_periodic (g : Finset T → List T → Option (Inference T))
    (init : List T) {i j : Nat} (hij : i < j)
    (hrep : pureState g init i = pureState g init j) :
    ∀ k, i ≤ k → pureState g init (k + (j - i)) = pureState g init k := by
  have key : ∀ d : Nat,
      pureState g init (i + d + (j - i)) = pureState g init (i + d) := by
    intro d
    induction d with
    | zero =>
      rw [Nat.add_zero, show i + (j - i) = j by omega]
      exact hrep.symm
    | succ d ih =>
      rw [show i + (d + 1) + (j - i) = (i + d + (j - i)) + 1 by omega,
        show i + (d + 1) = (i + d) + 1 by omega,
        pureState_succ, pureState_succ, ih]
  intro k hk
  have h2 := key (k - i)
  rw [show i + (k - i) = k by omega] at h2
  exact h2

/-! ## Shape of a running driver state (towards C1 and C4) -/

/-- No fingerprint among `F₀ … F_{n-1}` repeats an earlier one. -/
def noRepeatBefore (g : Finset T → List T → Option (Inference T))
    (init : List T) (n : Nat) : Prop :=
  ∀ m, m < n → ¬ ∃ k, k < m ∧ pureFacts g init k = pureFacts g init m

/-- The filter holds exactly the fingerprints `F_t … F_{n-1}`. -/
def filterIs (g : Finset T → List T → Option (Inference T))
    (init : List T) (t n : Nat) (F : Finset (List T)) : Prop :=
  ∀ l, l ∈ F ↔ ∃ k, t ≤ k ∧ k < n ∧ pureFacts g init k = l

/-- Invariant of a still-running driver state after `n` iterations of a
deterministic `infer`: the cache and facts agree with the pure trajectory,
and the filter/state machine are in one of the two phases, with the
`SearchMinimum` best `fa` a minimum-length multiset of the window so far. -/
def shapeInv (g : Finset T → List T → Option (Inference T))
    (init : List T) (n : Nat) (s : LoopState T) : Prop :=
  s.cache = (pureState g init n).1 ∧ s.facts = pureFacts g init n ∧
  ((s.st = SolverState.Solving ∧ filterIs g init 0 n s.filter
      ∧ noRepeatBefore g init n) ∨
   (∃ t fa, t < n ∧ s.st = SolverState.SearchMinimum fa
      ∧ filterIs g init t n s.filter
      ∧ (∃ k, k < t ∧ pureFacts g init k = pureFacts g init t)
      ∧ noRepeatBefore g init t
      ∧ (∀ m, t < m → m < n →
          ¬ ∃ k, t ≤ k ∧ k < m ∧ pureFacts g init k = pureFacts g init m)
      ∧ (∀ k, t ≤ k → k < n → fa.length ≤ (pureFacts g init k).length)
      ∧ (∃ k, t ≤ k ∧ k < n ∧ fa = pureFacts g init k)))

lemma pureState_none (g : Finset T → List T → Option (Inference T))
    (init : List T) (n : Nat)
    (hg : g (pureState g init n).1 (pureFacts g init n) = none) :
    pureState g init (n + 1) = pureState g init n := by
  rw [pureState_succ]
  unfold pureStep
  rw [show (pureState g init n).2 = pureFacts g init n from rfl, hg]

lemma pureState_some (g : Finset T → List T → Option (Inference T))
    (init : List T) (n : Nat) (x : Inference T)
    (hg : g (pureState g init n).1 (pureFacts g init n) = some x) :
    (pureState g init (n + 1)).1
        = (applyInference x (pureState g init n).1 (pureFacts g init n)).1 ∧
    pureFacts g init (n + 1)
        = (applyInference x (pureState g init n).1 (pureFacts g init n)).2 := by
  have h : pureState g init (n + 1)
      = applyInference x (pureState g init n).1 (pureFacts g init n) := by
    rw [pureState_succ]
    unfold pureStep
    rw [show (pureState g init n).2 = pureFacts g init n from rfl, hg]
  exact ⟨by rw [h], by rw [show pureFacts g init (n + 1)
    = (pureState g init (n + 1)).2 from rfl, h]⟩

lemma contOutcome (g : Finset T → List T → Option (Inference T))
    (init : List T) (n : Nat) (s s1 : LoopState T)
    (hcache : s.cache = (pureState g init n).1)
    (hfacts : s.facts = pureFacts g init n)
    (h1c : s1.cache = s.cache) (h1f : s1.facts = s.facts) :
    (∃ r, solveStepCont (detOracle g) n s1 = StepResult.done r) ∨
    (∃ s2, solveStepCont (detOracle g) n s1 = StepResult.cont s2 ∧
      s2.cache = (pureState g init (n + 1)).1 ∧
      s2.facts = pureFacts g init (n + 1) ∧
      s2.st = s1.st ∧ s2.filter = insert s.facts s1.filter) := by
  rcases solveStepCont_cases (detOracle g) n s1 with ⟨hd, _⟩ | ⟨x, horc, hc⟩
  · exact Or.inl ⟨s1.facts, hd⟩
  · right
    have hgx : g (pureState g init n).1 (pureFacts g init n) = some x := by
      have h0 : g s1.cache s1.facts = some x := horc
      rw [h1c, h1f, hcache, hfacts] at h0
      exact h0
    obtain ⟨he1, he2⟩ := pureState_some g init n x hgx
    refine ⟨_, hc, ?_, ?_, rfl, ?_⟩
    · show (applyInference x s1.cache s1.facts).1 = _
      rw [h1c, h1f, hcache, hfacts, he1]
    · show (applyInference x s1.cache s1.facts).2 = _
      rw [h1c, h1f, hcache, hfacts, he2]
    · show insert s1.facts s1.filter = insert s.facts s1.filter
      rw [h1f]

lemma run_shape (g : Finset T → List T → Option (Inference T))
    (init : List T) : ∀ n,
    (∃ r, runFrom (detOracle g) (initState init) n = StepResult.done r) ∨
    (∃ s, runFrom (detOracle g) (initState init) n = StepResult.cont s ∧
      shapeInv g init n s) := by
  intro n
  induction n with
  | zero =>
    right
    refine ⟨initState init, rfl, rfl, rfl, Or.inl ⟨rfl, ?_, ?_⟩⟩
    · intro l
      constructor
      · intro hl
        exact absurd hl (Finset.not_mem_empty l)
      · rintro ⟨k, _, hk, _⟩
        omega
    · intro m hm
      exact absurd hm (by omega)
  | succ n ih =>
    rcases ih with ⟨r, hr⟩ | ⟨s, hs, hcache, hfacts, hshape⟩
    · exact Or.inl ⟨r, runFrom_succ_of_done _ _ _ _ hr⟩
    · have hrun := runFrom_succ_of_cont (detOracle g) (initState init) n s hs
      rcases hshape with ⟨hst, hfil, hnr⟩ |
        ⟨t, fa, htn, hst, hfil, hrept, hnrt, hnob, hmin, hfain⟩
      · -- Solving phase
        by_cases hmem : s.facts ∈ s.filter
        · -- first repeated fingerprint: transition to SearchMinimum
          have hstep : solveStep (detOracle g) n s = solveStepCont (detOracle g) n
              { s with st := SolverState.SearchMinimum s.facts, filter := ∅ } := by
            simp only [solveStep, hst]
            rw [if_pos hmem]
          have hrepeat : ∃ k, k < n ∧
              pureFacts g init k = pureFacts g init n := by
            obtain ⟨k, _, hk2, hk3⟩ := (hfil s.facts).1 hmem
            exact ⟨k, hk2, by rw [hk3, hfacts]⟩
          rcases contOutcome g init n s
              { s with st := SolverState.SearchMinimum s.facts, filter := ∅ }
              hcache hfacts rfl rfl with
            ⟨r, hd⟩ | ⟨s2, hc, h2c, h2f, h2st, h2fil⟩
          · exact Or.inl ⟨r, by rw [hrun, hstep]; exact hd⟩
          · right
            refine ⟨s2, by rw [hrun, hstep]; exact hc, h2c, h2f,
              Or.inr ⟨n, s.facts, Nat.lt_succ_self n, by rw [h2st],
                ?_, hrepeat, hnr, ?_, ?_, ?_⟩⟩
            · intro l
              constructor
              · intro hl
                rw [h2fil] at hl
                rcases Finset.mem_insert.1 hl with rfl | hl2
                · exact ⟨n, by omega, by omega, hfacts.symm⟩
                · exact absurd hl2 (Finset.not_mem_empty l)
              · rintro ⟨k, hk1, hk2, hk3⟩
                have hkn : k = n := by omega
                subst hkn
                rw [h2fil]
                exact Finset.mem_insert.2 (Or.inl (by rw [← hk3, hfacts]))
            · intro m hm1 hm2
              exact absurd hm1 (by omega)
            · intro k hk1 hk2
              have hkn : k = n := by omega
              subst hkn
              rw [hfacts]
            · exact ⟨n, by omega, by omega, hfacts⟩
        · -- no repeat yet: stay Solving
          have hstep : solveStep (detOracle g) n s
              = solveStepCont (detOracle g) n s := by
            simp only [solveStep, hst]
            rw [if_neg hmem]
          rcases contOutcome g init n s s hcache hfacts rfl rfl with
            ⟨r, hd⟩ | ⟨s2, hc, h2c, h2f, h2st, h2fil⟩
          · exact Or.inl ⟨r, by rw [hrun, hstep]; exact hd⟩
          · right
            refine ⟨s2, by rw [hrun, hstep]; exact hc, h2c, h2f,
              Or.inl ⟨by rw [h2st, hst], ?_, ?_⟩⟩
            · intro l
              constructor
              · intro hl
                rw [h2fil] at hl
                rcases Finset.mem_insert.1 hl with rfl | hl2
                · exact ⟨n, by omega, by omega, hfacts.symm⟩
                · obtain ⟨k, hk1, hk2, hk3⟩ := (hfil l).1 hl2
                  exact ⟨k, by omega, by omega, hk3⟩
              · rintro ⟨k, hk1, hk2, hk3⟩
                rw [h2fil]
                by_cases hkn : k = n
                · subst hkn
                  exact Finset.mem_insert.2 (Or.inl (by rw [← hk3, hfacts]))
                · exact Finset.mem_insert.2
                    (Or.inr ((hfil l).2 ⟨k, by omega, by omega, hk3⟩))
            · intro m hm
              by_cases hmn : m = n
              · subst hmn
                rintro ⟨k, hk1, hk2⟩
                apply hmem
                exact (hfil s.facts).2 ⟨k, by omega, by omega,
                  by rw [hk2, hfacts]⟩
              · exact hnr m (by omega)
      · -- SearchMinimum phase
        by_cases hmem : s.facts ∈ s.filter
        · -- cycle closed: loop breaks
          exact Or.inl ⟨(if fa.length < s.facts.length then fa else s.facts), by
            rw [hrun]
            simp only [solveStep, hst]
            rw [if_pos hmem]⟩
        · by_cases hlt : s.facts.length < fa.length
          · -- smaller multiset found: update best
            have hstep : solveStep (detOracle g) n s
                = solveStepCont (detOracle g) n
                  { s with st := SolverState.SearchMinimum s.facts } := by
              simp only [solveStep, hst]
              rw [if_neg hmem, if_pos hlt]
            rcases contOutcome g init n s
                { s with st := SolverState.SearchMinimum s.facts }
                hcache hfacts rfl rfl with
              ⟨r, hd⟩ | ⟨s2, hc, h2c, h2f, h2st, h2fil⟩
            · exact Or.inl ⟨r, by rw [hrun, hstep]; exact hd⟩
            · right
              refine ⟨s2, by rw [hrun, hstep]; exact hc, h2c, h2f,
                Or.inr ⟨t, s.facts, by omega, by rw [h2st], ?_, hrept, hnrt,
                  ?_, ?_, ?_⟩⟩
              · intro l
                constructor
                · intro hl
                  rw [h2fil] at hl
                  rcases Finset.mem_insert.1 hl with rfl | hl2
                  · exact ⟨n, by omega, by omega, hfacts.symm⟩
                  · obtain ⟨k, hk1, hk2, hk3⟩ := (hfil l).1 hl2
                    exact ⟨k, hk1, by omega, hk3⟩
                · rintro ⟨k, hk1, hk2, hk3⟩
                  rw [h2fil]
                  by_cases hkn : k = n
                  · subst hkn
                    exact Finset.mem_insert.2 (Or.inl (by rw [← hk3, hfacts]))
                  · exact Finset.mem_insert.2
                      (Or.inr ((hfil l).2 ⟨k, hk1, by omega, hk3⟩))
              · intro m hm1 hm2
                by_cases hmn : m = n
                · subst hmn
                  rintro ⟨k, hk1, hk2, hk3⟩
                  apply hmem
                  exact (hfil s.facts).2 ⟨k, hk1, hk2, by rw [hk3, hfacts]⟩
                · exact hnob m hm1 (by omega)
              · intro k hk1 hk2
                by_cases hkn : k = n
                · subst hkn
                  rw [hfacts]
                · have h1 := hmin k hk1 (by omega)
                  omega
              · exact ⟨n, by omega, by omega, hfacts⟩
          · -- keep current best
            have hstep : solveStep (detOracle g) n s
                = solveStepCont (detOracle g) n s := by
              simp only [solveStep, hst]
              rw [if_neg hmem, if_neg hlt]
            rcases contOutcome g init n s s hcache hfacts rfl rfl with
              ⟨r, hd⟩ | ⟨s2, hc, h2c, h2f, h2st, h2fil⟩
            · exact Or.inl ⟨r, by rw [hrun, hstep]; exact hd⟩
            · right
              refine ⟨s2, by rw [hrun, hstep]; exact hc, h2c, h2f,
                Or.inr ⟨t, fa, by omega, by rw [h2st, hst], ?_, hrept, hnrt,
                  ?_, ?_, ?_⟩⟩
              · intro l
                constructor
                · intro hl
                  rw [h2fil] at hl
                  rcases Finset.mem_insert.1 hl with rfl | hl2
                  · exact ⟨n, by omega, by omega, hfacts.symm⟩
                  · obtain ⟨k, hk1, hk2, hk3⟩ := (hfil l).1 hl2
                    exact ⟨k, hk1, by omega, hk3⟩
                · rintro ⟨k, hk1, hk2, hk3⟩
                  rw [h2fil]
                  by_cases hkn : k = n
                  · subst hkn
                    exact Finset.mem_insert.2 (Or.inl (by rw [← hk3, hfacts]))
                  · exact Finset.mem_insert.2
                      (Or.inr ((hfil l).2 ⟨k, hk1, by omega, hk3⟩))
              · intro m hm1 hm2
                by_cases hmn : m = n
                · subst hmn
                  rintro ⟨k, hk1, hk2, hk3⟩
                  apply hmem
                  exact (hfil s.facts).2 ⟨k, hk1, hk2, by rw [hk3, hfacts]⟩
                · exact hnob m hm1 (by omega)
              · intro k hk1 hk2
                by_cases hkn : k = n
                · subst hkn
                  have hlen : (pureFacts g init k).length = s.facts.length := by
                    rw [hfacts]
                  omega
                · exact hmin k hk1 (by omega)
              · obtain ⟨k, hk1, hk2, hk3⟩ := hfain
                exact ⟨k, hk1, by omega, hk3⟩

lemma solveStep_done_chars
    (orc : Nat → Finset T → List T → Option (Inference T))
    (n : Nat) (s : LoopState T) (r : List T)
    (h : solveStep orc n s = StepResult.done r) :
    (orc n s.cache s.facts = none ∧ r = s.facts) ∨
    (∃ fa, s.st = SolverState.SearchMinimum fa ∧ s.facts ∈ s.filter ∧
      r = (if fa.length < s.facts.length then fa else s.facts)) := by
  cases hstc : s.st with
  | Solving =>
    simp only [solveStep, hstc] at h
    by_cases hmem : s.facts ∈ s.filter
    · rw [if_pos hmem] at h
      rcases solveStepCont_cases orc n
          { s with st := SolverState.SearchMinimum s.facts, filter := ∅ } with
        ⟨hd, horc⟩ | ⟨x, horc, hc⟩
      · rw [hd] at h
        cases h
        exact Or.inl ⟨horc, rfl⟩
      · rw [hc] at h
        cases h
    · rw [if_neg hmem] at h
      rcases solveStepCont_cases orc n s with ⟨hd, horc⟩ | ⟨x, horc, hc⟩
      · rw [hd] at h
        cases h
        exact Or.inl ⟨horc, rfl⟩
      · rw [hc] at h
        cases h
  | SearchMinimum fa =>
    simp only [solveStep, hstc] at h
    by_cases hmem : s.facts ∈ s.filter
    · rw [if_pos hmem] at h
      cases h
      exact Or.inr ⟨fa, rfl, hmem, rfl⟩
    · rw [if_neg hmem] at h
      by_cases hlt : s.facts.length < fa.length
      · rw [if_pos hlt] at h
        rcases solveStepCont_cases orc n
            { s with st := SolverState.SearchMinimum s.facts } with
          ⟨hd, horc⟩ | ⟨x, horc, hc⟩
        · rw [hd] at h
          cases h
          exact Or.inl ⟨horc, rfl⟩
        · rw [hc] at h
          cases h
      · rw [if_neg hlt] at h
        rcases solveStepCont_cases orc n s with ⟨hd, horc⟩ | ⟨x, horc, hc⟩
        · rw [hd] at h
          cases h
          exact Or.inl ⟨horc, rfl⟩
        · rw [hc] at h
          cases h

lemma exists_break (orc : Nat → Finset T → List T → Option (Inference T))
    (s0 : LoopState T) : ∀ (n : Nat) (r : List T),
    runFrom orc s0 n = StepResult.done r →
    ∃ b s, runFrom orc s0 b = StepResult.cont s ∧
      solveStep orc b s = StepResult.done r := by
  intro n
  induction n with
  | zero =>
    intro r h
    simp [runFrom] at h
  | succ n ih =>
    intro r h
    cases hn : runFrom orc s0 n with
    | done r' =>
      rw [runFrom_succ_of_done orc s0 n r' hn] at h
      cases h
      exact ih _ hn
    | cont s =>
      rw [runFrom_succ_of_cont orc s0 n s hn] at h
      exact ⟨n, s, hn, h⟩

lemma break_char (g : Finset T → List T → Option (Inference T))
    (init : List T) (b : Nat) (s : LoopState T) (r : List T)
    (hcont : runFrom (detOracle g) (initState init) b = StepResult.cont s)
    (hdone : solveStep (detOracle g) b s = StepResult.done r) :
    (g (pureState g init b).1 (pureFacts g init b) = none
        ∧ r = pureFacts g init b) ∨
    (∃ t m, t ≤ b ∧ t ≤ m ∧ m < b ∧
      pureFacts g init m = pureFacts g init b ∧
      (∀ k, t ≤ k → k ≤ b → r.length ≤ (pureFacts g init k).length) ∧
      (∃ k, t ≤ k ∧ k ≤ b ∧ r = pureFacts g init k)) := by
  rcases run_shape g init b with ⟨r0, hr0⟩ | ⟨s', hs', hinv⟩
  · rw [hr0] at hcont
    cases hcont
  · rw [hs'] at hcont
    injection hcont with he
    subst he
    obtain ⟨hcache, hfacts, hshape⟩ := hinv
    rcases solveStep_done_chars (detOracle g) b s' r hdone with
      ⟨horc, hr⟩ | ⟨fa, hst, hmem, hr⟩
    · left
      constructor
      · have h0 : g s'.cache s'.facts = none := horc
        rw [hcache, hfacts] at h0
        exact h0
      · rw [hr, hfacts]
    · right
      rcases hshape with ⟨hst2, _, _⟩ |
        ⟨t, fa2, htb, hst2, hfil, hrept, hnrt, hnob, hmin, hfain⟩
      · rw [hst2] at hst
        cases hst
      · have hfa : fa2 = fa := by
          have := hst2.symm.trans hst
          injection this
        subst hfa
        obtain ⟨m, hm1, hm2, hm3⟩ := (hfil s'.facts).1 hmem
        refine ⟨t, m, by omega, hm1, hm2, by rw [hm3, hfacts], ?_, ?_⟩
        · intro k hk1 hk2
          by_cases hlt : fa2.length < s'.facts.length
          · rw [hr, if_pos hlt]
            by_cases hkb : k = b
            · subst hkb
              have hl2 : (pureFacts g init k).length = s'.facts.length := by
                rw [hfacts]
              omega
            · exact hmin k hk1 (by omega)
          · rw [hr, if_neg hlt]
            by_cases hkb : k = b
            · subst hkb
              rw [hfacts]
            · have h1 := hmin k hk1 (by omega)
              omega
        · by_cases hlt : fa2.length < s'.facts.length
          · obtain ⟨k, hk1, hk2, hk3⟩ := hfain
            exact ⟨k, hk1, by omega, by rw [hr, if_pos hlt]; exact hk3⟩
          · exact ⟨b, by omega, by omega, by rw [hr, if_neg hlt]; exact hfacts⟩

lemma terminates_of_facts_periodic
    (g : Finset T → List T → Option (Inference T)) (init : List T)
    (i0 p : Nat) (hp : 0 < p)
    (hper : ∀ k, i0 ≤ k → pureFacts g init (k + p) = pureFacts g init k) :
    ∃ n r, runFrom (detOracle g) (initState init) n = StepResult.done r := by
  rcases run_shape g init (i0 + p + 1) with
    ⟨r, hr⟩ | ⟨s, hs, hcache, hfacts, hshape⟩
  · exact ⟨_, r, hr⟩
  rcases hshape with ⟨hst, hfil, hnr⟩ |
    ⟨t, fa, htn, hst, hfil, hrept, hnrt, hnob, hmin, hfain⟩
  · exact absurd ⟨i0, by omega, (hper i0 (by omega)).symm⟩
      (hnr (i0 + p) (by omega))
  · rcases run_shape g init (max t i0 + p + 1) with
      ⟨r, hr⟩ | ⟨s2, hs2, hcache2, hfacts2, hshape2⟩
    · exact ⟨_, r, hr⟩
    rcases hshape2 with ⟨hst2, hfil2, hnr2⟩ |
      ⟨t2, fa2, htn2, hst2, hfil2, hrept2, hnrt2, hnob2, hmin2, hfain2⟩
    · exact absurd ⟨i0, by omega, (hper i0 (by omega)).symm⟩
        (hnr2 (i0 + p) (by omega))
    · have ht2t : t2 = t := by
        by_cases hlt : t2 < t
        · exact absurd hrept2 (hnrt t2 hlt)
        · by_cases hgt : t < t2
          · exact absurd hrept (hnrt2 t hgt)
          · omega
      exact absurd
        ⟨max t i0, by omega, by omega,
          (hper (max t i0) (by omega)).symm⟩
        (hnob2 (max t i0 + p) (by omega) (by omega))

/-- C4 (amended): for every *deterministic* inference function, whenever
the driver's full state — presence cache *and* fact multiset — recurs in
the trajectory, the `solve_minimum` loop terminates and returns.  (The
original claim, termination from a repeated fact-multiset fingerprint alone
and for arbitrary `infer`, is refuted by
`repeat_without_termination_counterexample`: a cache-drifted deterministic
oracle repeats `F₀ = F₁ = []` yet never terminates.) -/
theorem solve_minimum_terminates_of_state_repeat
    (g : Finset T → List T → Option (Inference T)) (init : List T)
    (i j : Nat) (hij : i < j)
    (hrep : pureState g init i = pureState g init j) :
    ∃ n r, solve_minimum n init (detOracle g) = some r := by
  have hper : ∀ k, i ≤ k →
      pureFacts g init (k + (j - i)) = pureFacts g init k := by
    intro k hk
    exact congrArg Prod.snd (pureState_periodic g init hij hrep k hk)
  obtain ⟨n, r, hnr⟩ :=
    terminates_of_facts_periodic g init i (j - i) (by omega) hper
  exact ⟨n, r, by unfold solve_minimum; rw [hnr]⟩

/-- Witness for C4 (amended): the always-`none` oracle on `[5]` repeats its
state at indices 0 and 1, and the loop indeed returns. -/
theorem solve_minimum_terminates_witness :
    (0 < 1 ∧
      pureState (fun _ _ => none : Finset Nat → List Nat → Option (Inference Nat))
        [5] 0
      = pureState (fun _ _ => none : Finset Nat → List Nat → Option (Inference Nat))
        [5] 1) ∧
    ∃ n r, solve_minimum n [5]
      (detOracle (fun _ _ => none : Finset Nat → List Nat → Option (Inference Nat)))
      = some r :=
  ⟨⟨Nat.one_pos, rfl⟩,
    solve_minimum_terminates_of_state_repeat
      (fun _ _ => none : Finset Nat → List Nat → Option (Inference Nat))
      [5] 0 1 Nat.one_pos rfl⟩

/-- C1 (amended): for a deterministic inference function whose fact
trajectory `F₀, F₁, …` (frozen once `infer` answers `none`) becomes
periodic, `solve_minimum` terminates; at the break iteration `b` either

* the loop closed a detected cycle window: there are `t ≤ m < b` with
  `F_b = F_m` (the fingerprint recurrence that triggered the break, the
  window `F_t … F_b` being a cycle of the iteration sequence in the
  glossary's "detected via fingerprint recurrence" sense) and the returned
  multiset `R` has `|R| = min_{t ≤ k ≤ b} |F_k|`, or
* `infer` returned `none` at iteration `b` and the current multiset `F_b`
  is returned as is — even when a cycle had already been detected, in which
  case the minimum observed so far is discarded (this is the case refuted
  in `min_in_cycle_counterexample`, which is why the claim as stated is
  amended). -/
theorem solve_minimum_min_in_cycle
    (g : Finset T → List T → Option (Inference T)) (init : List T)
    (i0 p : Nat) (hp : 0 < p)
    (hper : ∀ k, i0 ≤ k → pureFacts g init (k + p) = pureFacts g init k) :
    ∃ n r b s, solve_minimum n init (detOracle g) = some r ∧
      runFrom (detOracle g) (initState init) b = StepResult.cont s ∧
      solveStep (detOracle g) b s = StepResult.done r ∧
      ((g (pureState g init b).1 (pureFacts g init b) = none
          ∧ r = pureFacts g init b) ∨
       (∃ t m, t ≤ b ∧ t ≤ m ∧ m < b ∧
         pureFacts g init m = pureFacts g init b ∧
         (∀ k, t ≤ k → k ≤ b → r.length ≤ (pureFacts g init k).length) ∧
         (∃ k, t ≤ k ∧ k ≤ b ∧ r = pureFacts g init k))) := by
  obtain ⟨n, r, hnr⟩ := terminates_of_facts_periodic g init i0 p hp hper
  obtain ⟨b, s, hcont, hdone⟩ := exists_break (detOracle g) (initState init) n r hnr
  exact ⟨n, r, b, s, by unfold solve_minimum; rw [hnr], hcont, hdone,
    break_char g init b s r hcont hdone⟩

/-- Witness for C1 (amended): the always-`none` oracle on `[5]` has a
constant (hence periodic) trajectory, and the theorem applies. -/
theorem solve_minimum_min_in_cycle_witness :
    (0 < 1 ∧ (∀ k, 0 ≤ k →
      pureFacts (fun _ _ => none : Finset Nat → List Nat → Option (Inference Nat))
        [5] (k + 1)
      = pureFacts (fun _ _ => none : Finset Nat → List Nat → Option (Inference Nat))
        [5] k)) ∧
    (∃ n r b s, solve_minimum n [5]
        (detOracle (fun _ _ => none : Finset Nat → List Nat → Option (Inference Nat)))
        = some r ∧
      runFrom (detOracle (fun _ _ => none : Finset Nat → List Nat → Option (Inference Nat)))
        (initState [5]) b = StepResult.cont s ∧
      solveStep (detOracle (fun _ _ => none : Finset Nat → List Nat → Option (Inference Nat)))
        b s = StepResult.done r ∧
      (((fun _ _ => none : Finset Nat → List Nat → Option (Inference Nat))
          (pureState (fun _ _ => none) [5] b).1 (pureFacts (fun _ _ => none) [5] b) = none
          ∧ r = pureFacts (fun _ _ => none) [5] b) ∨
       (∃ t m, t ≤ b ∧ t ≤ m ∧ m < b ∧
         pureFacts (fun _ _ => none) [5] m = pureFacts (fun _ _ => none) [5] b ∧
         (∀ k, t ≤ k → k ≤ b →
           r.length ≤ (pureFacts (fun _ _ => none) [5] k).length) ∧
         (∃ k, t ≤ k ∧ k ≤ b ∧ r = pureFacts (fun _ _ => none) [5] k)))) := by
  have hconst : ∀ n, pureState
      (fun _ _ => none : Finset Nat → List Nat → Option (Inference Nat)) [5] n
      = (List.toFinset [5], [5]) := by
    intro n
    induction n with
    | zero => rfl
    | succ n ih => rw [pureState_succ, ih]; rfl
  have hper : ∀ k, 0 ≤ k →
      pureFacts (fun _ _ => none : Finset Nat → List Nat → Option (Inference Nat))
        [5] (k + 1)
      = pureFacts (fun _ _ => none : Finset Nat → List Nat → Option (Inference Nat))
        [5] k := by
    intro k _
    show (pureState (fun _ _ => none) [5] (k + 1)).2
      = (pureState (fun _ _ => none) [5] k).2
    rw [hconst, hconst]
  exact ⟨⟨Nat.one_pos, hper⟩,
    solve_minimum_min_in_cycle
      (fun _ _ => none : Finset Nat → List Nat → Option (Inference Nat))
      [5] 0 1 Nat.one_pos hper⟩

/-- Deterministic oracle for the C1 counterexample.  Trajectory from `[0]`:
`[0]` (cache-polluting no-op `SimplifyOne 1 1`), `[0]` (fingerprint repeat:
cycle detected), `[]` (after `OneTrue 0`; recorded as best, length 0),
`[2, 3]` (after `SimplifyMany [] [2,3]`), then `infer` returns `none` and
the loop returns `[2, 3]`, discarding the smaller `[]`. -/
def g0 : Finset Nat → List Nat → Option (Inference Nat) :=
  fun c fs =>
    if fs = [0] then
      (if 1 ∈ c then some (Inference.OneTrue 0)
       else some (Inference.SimplifyOne 1 1))
    else if fs = [] then some (Inference.SimplifyMany [] [2, 3])
    else none

/-- C1 counterexample: `solve_minimum` with `g0` on `[0]` returns
`[2, 3]` (length 2).  Its trajectory (frozen after the `none`) is
eventually constant, hence enters a cycle; the produced multisets are
`F₀ = [0], F₁ = [0], F₂ = [], F₃ = [2, 3]`.  No window `Fᵢ … F_b` of the
produced sequence that ends in a repeat (`F_m = F_b`, `i ≤ m < b`) attains
minimum length 2, and `infer` returned `none` only *after* the cycle had
been detected (state already `SearchMinimum`) — so neither clause of the
claim as stated holds. -/
theorem min_in_cycle_counterexample :
    runFrom (detOracle g0) (initState [0]) 4 = StepResult.done [2, 3] ∧
    (∀ k, pureFacts g0 [0] (k + 3) = [2, 3]) ∧
    (pureFacts g0 [0] 0 = [0] ∧ pureFacts g0 [0] 1 = [0] ∧
      pureFacts g0 [0] 2 = [] ∧ pureFacts g0 [0] 3 = [2, 3]) ∧
    (¬ ∃ b, b ≤ 3 ∧ ∃ m, m ≤ 3 ∧ ∃ i, i ≤ 3 ∧ i ≤ m ∧ m < b ∧
      pureFacts g0 [0] m = pureFacts g0 [0] b ∧
      (∀ k, k ≤ 3 → i ≤ k → k ≤ b → 2 ≤ (pureFacts g0 [0] k).length) ∧
      (∃ k, k ≤ 3 ∧ i ≤ k ∧ k ≤ b ∧ (pureFacts g0 [0] k).length = 2)) ∧
    (∃ s, runFrom (detOracle g0) (initState [0]) 3 = StepResult.cont s ∧
      s.st ≠ SolverState.Solving ∧ g0 s.cache s.facts = none) := by
  have hfroz : ∀ k, pureFacts g0 [0] (k + 3) = [2, 3] := by
    intro k
    induction k with
    | zero => decide
    | succ k ih =>
      have h2 : pureStep g0 (pureState g0 [0] (k + 3))
          = pureState g0 [0] (k + 3) := by
        unfold pureStep
        have hg : g0 (pureState g0 [0] (k + 3)).1
            (pureState g0 [0] (k + 3)).2 = none := by
          have hff : (pureState g0 [0] (k + 3)).2 = [2, 3] := ih
          rw [hff]
          rfl
        rw [hg]
      show (pureState g0 [0] (k + 1 + 3)).2 = [2, 3]
      rw [show k + 1 + 3 = (k + 3) + 1 by omega, pureState_succ, h2]
      exact ih
  refine ⟨by decide, hfroz, by decide, by decide, ⟨_, rfl, by decide, by decide⟩⟩

end LinearSolver
